import Mathlib

/-!
Verification development for the ufo2fdk instruction compiler and anchor
propagation engine.  The instruction compiler definitions are a shallow
embedding of src/Lib/ufo2ft/instructionCompiler.py: in-place mutation of the
binary font becomes explicit state passing, Python exceptions become an
Option PyErr component of the result, and logging becomes an explicit list
of log messages.  Machine integers do not overflow in the modelled code
paths (component flags are small bit masks), so flags are Nat with explicit
bitwise operations.
-/

/-- Lexicographic code-point order on character lists, the order Python
uses to compare strings. -/
def charListLt : List Char → List Char → Bool
  | [], [] => false
  | [], _ :: _ => true
  | _ :: _, [] => false
  | c :: cs, d :: ds =>
    if c.toNat < d.toNat then true
    else if d.toNat < c.toNat then false
    else charListLt cs ds

/-- Code-point order on strings (the order of Python sorted). -/
def strLt (a b : String) : Bool := charListLt a.data b.data

namespace InstrComp

/-- Log levels used by the instruction compiler (Python logging). -/
inductive LogLevel where
  | debug
  | warning
  | error
deriving DecidableEq, Repr

/-- One emitted log record. -/
structure LogMsg where
  level : LogLevel
  msg : String
deriving DecidableEq, Repr

/-- Python exceptions that the modelled code can raise. -/
inductive PyErr where
  | typeError (msg : String)
  | notImplementedError (msg : String)
deriving DecidableEq, Repr

/-- Model of the external fontTools ttProgram.Program object: a compiled
TrueType program holding bytecode.  The claims only depend on the byte
length and emptiness of the bytecode, never on its contents, so the
assembly-to-bytecode encoding is modelled as a deterministic function of
the assembly text (one byte per character). -/
structure Program where
  bytecode : List Nat
deriving DecidableEq, Repr

/-- Model of Program.fromAssembly followed by getBytecode: a deterministic
encoding of the assembly text into bytes. -/
def Program.fromAssembly (asm : String) : Program :=
  ⟨asm.toList.map Char.toNat⟩

/-- Python truthiness of a fontTools Program: falsy when it has no code. -/
def Program.isTruthy (p : Program) : Bool :=
  !p.bytecode.isEmpty

/-- Per-glyph instruction metadata block, the value of the glyph lib key
public.truetype.instructions: keys formatVersion, id, assembly.  Absent
keys are modelled as none. -/
structure GlyphTTData where
  formatVersion : Option Int
  id : Option String
  assembly : Option String
deriving DecidableEq, Repr

/-- Per-component metadata inside public.objectLibs, with the keys
public.truetype.roundOffsetToGrid and public.truetype.useMyMetrics.
Absent keys are modelled as none. -/
structure ComponentLib where
  roundOffsetToGrid : Option Bool
  useMyMetrics : Option Bool
deriving DecidableEq, Repr

/-- Font-level instruction metadata block, the value of the font lib key
public.truetype.instructions.  Absent keys are modelled as none. -/
structure FontTTData where
  formatVersion : Option Int
  fontProgram : Option String
  controlValueProgram : Option String
  maxStorage : Option Int
  maxFunctionDefs : Option Int
  maxInstructionDefs : Option Int
  maxStackElements : Option Int
  maxZones : Option Int
  maxTwilightPoints : Option Int
  maxSizeOfInstructions : Option Int
deriving DecidableEq, Repr

/-- Python truthiness of the font-level metadata dict: a dict is truthy
exactly when it has at least one key. -/
def FontTTData.isTruthy (d : FontTTData) : Bool :=
  d.formatVersion.isSome || d.fontProgram.isSome || d.controlValueProgram.isSome ||
  d.maxStorage.isSome || d.maxFunctionDefs.isSome || d.maxInstructionDefs.isSome ||
  d.maxStackElements.isSome || d.maxZones.isSome || d.maxTwilightPoints.isSome ||
  d.maxSizeOfInstructions.isSome

/-- Font-level metadata dict with no keys at all (an empty plist dict). -/
def FontTTData.emptyDict : FontTTData :=
  ⟨none, none, none, none, none, none, none, none, none, none⟩

/-- One point of a UFO glyph outline, as seen by the hashing pen. -/
structure PointRec where
  x : Int
  y : Int
  onCurve : Bool
deriving DecidableEq, Repr

/-- A component reference of a UFO glyph: base glyph name and optional
stable identifier (the affine transform does not take part in any claim
about the instruction compiler). -/
structure UFOComponent where
  baseGlyph : String
  identifier : Option String
deriving DecidableEq, Repr

/-- A source (UFO) glyph together with the lib data the instruction
compiler reads: instruction metadata, public.objectLibs, and the
public.truetype.overlap key (none when the key is absent). -/
structure UFOGlyph where
  name : String
  width : Int
  contours : List (List PointRec)
  components : List UFOComponent
  ttdata : Option GlyphTTData
  objectLibs : Option (List (String × ComponentLib))
  overlap : Option Bool
deriving DecidableEq, Repr

/-- Serialization of one point for the hash pen. -/
def pointHash (p : PointRec) : String :=
  toString p.x ++ "," ++ toString p.y ++ "," ++ (if p.onCurve then "1" else "0")

/-- Serialization of one contour for the hash pen. -/
def contourHash (c : List PointRec) : String :=
  String.intercalate (";") (c.map pointHash)

/-- Model of the external fontTools HashPointPen: a deterministic
structural hash over the ordered point data (coordinates and on-curve
flags with contour boundaries), the component references, and the advance
width of the glyph.  We model the hash as a canonical serialization
string. -/
def hashPointPen (g : UFOGlyph) : String :=
  "w" ++ toString g.width ++ "|" ++
  String.intercalate ("|") (g.contours.map contourHash) ++ "|" ++
  String.intercalate ("|") (g.components.map (fun c => c.baseGlyph))

/-- Component flag bit ROUND_XY_TO_GRID from fontTools. -/
def ROUND_XY_TO_GRID : Nat := 0x0004

/-- Component flag bit USE_MY_METRICS from fontTools. -/
def USE_MY_METRICS : Nat := 0x0200

/-- Component flag bit OVERLAP_COMPOUND from fontTools. -/
def OVERLAP_COMPOUND : Nat := 0x0400

/-- Translation of the Python statement flags |= bit. -/
def setBit (f b : Nat) : Nat := f ||| b

/-- Translation of the Python statement flags &= ~bit on a nonnegative
int: removing from f every bit it shares with b. -/
def clearBit (f b : Nat) : Nat := f ^^^ (f &&& b)

/-- A component of a compiled (binary) TrueType glyph; the claims only
concern its flag word. -/
structure TTComponent where
  flags : Nat
deriving DecidableEq, Repr

/-- A compiled TrueType glyph in the glyf table: an optional attached
program (none models the absent program attribute) and its components. -/
structure TTGlyph where
  program : Option Program
  components : List TTComponent
deriving DecidableEq, Repr

/-- Translation of ttglyph.isComposite(). -/
def TTGlyph.isComposite (g : TTGlyph) : Bool :=
  !g.components.isEmpty

/-- The maxp table fields the compiler may touch, plus representative
other fields used to state frame conditions. -/
structure MaxpTable where
  maxStorage : Int
  maxFunctionDefs : Int
  maxInstructionDefs : Int
  maxStackElements : Int
  maxZones : Int
  maxTwilightPoints : Int
  maxSizeOfInstructions : Int
  numGlyphs : Int
  maxPoints : Int
  maxContours : Int
  maxComponentElements : Int
  maxComponentDepth : Int
deriving DecidableEq, Repr

/-- The already-compiled binary font the instruction compiler mutates. -/
structure TTFont where
  glyf : List (String × TTGlyph)
  fpgm : Option Program
  prep : Option Program
  maxp : MaxpTable
deriving DecidableEq, Repr

/-- The source UFO font: its glyphs and the font-level instruction
metadata block from its lib (none when the key is absent). -/
structure UFOFont where
  glyphs : List UFOGlyph
  lib : Option FontTTData
deriving DecidableEq, Repr

/-- Lookup of a source glyph by name (self.ufo[name]). -/
def findGlyph (ufo : UFOFont) (n : String) : Option UFOGlyph :=
  ufo.glyphs.find? (fun g => g.name == n)

/-- Lookup of a compiled glyph by name in the glyf table. -/
def lookupTT (glyf : List (String × TTGlyph)) (n : String) : Option TTGlyph :=
  (glyf.find? (fun e => e.1 == n)).map (fun e => e.2)

/-- Replacement of the compiled glyph stored under a name. -/
def updateTT (glyf : List (String × TTGlyph)) (n : String) (g : TTGlyph) :
    List (String × TTGlyph) :=
  glyf.map (fun e => if e.1 == n then (e.1, g) else e)

/-- Message of the error logged when the glyph hash id is missing. -/
def hashMissingMsg (n : String) : String :=
  "Glyph hash missing, glyph " ++ n ++ " will have no instructions in font."

/-- Message of the error logged on a glyph hash mismatch. -/
def hashMismatchMsg (n : String) : String :=
  "Glyph hash mismatch, glyph " ++ n ++ " will have no instructions in font."

/-- Message of the error logged when the assembly key is missing. -/
def asmMissingMsg (n : String) : String :=
  "Glyph assembly missing, glyph " ++ n ++ " will have no instructions in font."

/-- Message of the error logged on a component count mismatch. -/
def countMismatchMsg (n : String) : String :=
  "Number of components differ between UFO and TTF in glyph " ++ n ++
  ", not setting component flags from UFO. They may still be set heuristically."

/-- Message of the warning logged when a later USE_MY_METRICS request is
ignored: it names the ignored component id, the retaining component id and
the glyph. -/
def metricsIgnoredMsg (ignored retained gname : String) : String :=
  "Ignoring USE_MY_METRICS flag on component " ++ ignored ++
  " because it has been set on component " ++ retained ++
  " already in glyph " ++ gname ++ "."

/-- Translation of InstructionCompiler._check_glyph_hash: compare the
stored id against a freshly computed hash of the current outline and
width; report failure with an error log. -/
def checkGlyphHash (glyph : UFOGlyph) (ttdata : GlyphTTData) :
    Bool × List LogMsg :=
  match ttdata.id with
  | none => (false, [⟨LogLevel.error, hashMissingMsg glyph.name⟩])
  | some gid =>
    if gid ≠ hashPointPen glyph then
      (false, [⟨LogLevel.error, hashMismatchMsg glyph.name⟩])
    else
      (true, [])

/-- Translation of InstructionCompiler._check_tt_data_format: Python
int(None) raises TypeError; a format version other than 1 raises
NotImplementedError.  The result none means the check passed. -/
def checkTTDataFormat (ttdata : GlyphTTData) : Option PyErr :=
  match ttdata.formatVersion with
  | none => some (PyErr.typeError ("int() argument cannot be None"))
  | some v =>
    if v ≠ 1 then
      some (PyErr.notImplementedError ("Unknown formatVersion " ++ toString v ++
        " for instructions in glyph."))
    else
      none

/-- Translation of InstructionCompiler._compile_tt_glyph_program.  The
raise of the format check happens before any state change; on a failed
hash check or missing assembly the glyph is returned unchanged with an
error log; otherwise the compiled program is attached. -/
def compileTTGlyphProgram (glyph : UFOGlyph) (ttglyph : TTGlyph)
    (ttdata : GlyphTTData) : TTGlyph × List LogMsg × Option PyErr :=
  match checkTTDataFormat ttdata with
  | some e => (ttglyph, [], some e)
  | none =>
    match checkGlyphHash glyph ttdata with
    | (false, logs) => (ttglyph, logs, none)
    | (true, logs) =>
      match ttdata.assembly with
      | none => (ttglyph, logs ++ [⟨LogLevel.error, asmMissingMsg glyph.name⟩], none)
      | some asm =>
        ({ ttglyph with program := some (Program.fromAssembly asm) }, logs, none)

/-- Python truthiness of the use_my_metrics_comp variable, which is None
or a component identifier string (an empty string is falsy). -/
def strTruthy : Option String → Bool
  | none => false
  | some s => !s.isEmpty

/-- Lookup of the per-component lib for a component identifier inside
public.objectLibs of the glyph. -/
def lookupComponentLib (glyph : UFOGlyph) (cid : String) : Option ComponentLib :=
  glyph.objectLibs.bind (fun ol => (ol.find? (fun e => e.1 == cid)).map (fun e => e.2))

/-- Translation of one iteration of the component loop of
InstructionCompiler._set_composite_flags: given the index, the compiled
component, the matching source component and the current
use_my_metrics_comp value, produce the updated flags, the new
use_my_metrics_comp and any logs. -/
def processComponent (glyph : UFOGlyph) (i : Nat) (c : TTComponent)
    (uc : UFOComponent) (umm : Option String) :
    TTComponent × Option String × List LogMsg :=
  let step1 : Nat × Option String × List LogMsg :=
    match uc.identifier with
    | none => (c.flags, umm, [])
    | some cid =>
      match lookupComponentLib glyph cid with
      | none => (c.flags, umm, [])
      | some clib =>
        if clib.roundOffsetToGrid.isSome || clib.useMyMetrics.isSome then
          let f1 :=
            if clib.roundOffsetToGrid.getD true then setBit c.flags ROUND_XY_TO_GRID
            else clearBit c.flags ROUND_XY_TO_GRID
          if clib.useMyMetrics.getD false then
            let f2 := clearBit f1 USE_MY_METRICS
            if strTruthy umm then
              (f2, umm,
               [⟨LogLevel.warning, metricsIgnoredMsg cid (umm.getD ("")) glyph.name⟩])
            else
              (setBit f2 USE_MY_METRICS, some cid, [])
          else
            (f1, umm, [])
        else
          (c.flags, umm, [])
  let f2 :=
    if i == 0 then
      match glyph.overlap with
      | none => step1.1
      | some b =>
        if b then setBit step1.1 OVERLAP_COMPOUND
        else clearBit step1.1 OVERLAP_COMPOUND
    else step1.1
  (⟨f2⟩, step1.2.1, step1.2.2)

/-- The component loop of InstructionCompiler._set_composite_flags over
the zipped compiled and source components, threading the index and the
use_my_metrics_comp state. -/
def flagsGo (glyph : UFOGlyph) :
    Nat → Option String → List (TTComponent × UFOComponent) →
    List TTComponent × List LogMsg
  | _, _, [] => ([], [])
  | i, umm, (c, uc) :: rest =>
    let r := processComponent glyph i c uc umm
    let t := flagsGo glyph (i + 1) r.2.1 rest
    (r.1 :: t.1, r.2.2 ++ t.2)

/-- Translation of InstructionCompiler._set_composite_flags: remove an
empty glyph program, bail out with an error log when the component counts
differ, otherwise run the component loop. -/
def setCompositeFlags (glyph : UFOGlyph) (ttglyph : TTGlyph) :
    TTGlyph × List LogMsg :=
  let tt1 :=
    match ttglyph.program with
    | some p => if !p.isTruthy then { ttglyph with program := none } else ttglyph
    | none => ttglyph
  if tt1.components.length ≠ glyph.components.length then
    (tt1, [⟨LogLevel.error, countMismatchMsg glyph.name⟩])
  else
    let r := flagsGo glyph 0 none (tt1.components.zip glyph.components)
    ({ tt1 with components := r.1 }, r.2)

/-- Message of the debug log for instruction data on a glyph absent from
the compiled glyf table. -/
def orphanMsg (n : String) : String :=
  "Glyph " ++ n ++ " not found in font, skipping compilation of TrueType instructions for this glyph."

/-- Translation of InstructionCompiler._compile_tt_glyph, acting on the
glyf table: compile the glyph program when instruction metadata is
present, then derive composite flags when the compiled glyph is a
composite. -/
def compileTTGlyph (ufo : UFOFont) (glyf : List (String × TTGlyph))
    (n : String) : List (String × TTGlyph) × List LogMsg × Option PyErr :=
  match findGlyph ufo n with
  | none => (glyf, [], none)
  | some glyph =>
    match lookupTT glyf n with
    | none =>
      (glyf,
       if glyph.ttdata.isSome then [⟨LogLevel.debug, orphanMsg n⟩] else [],
       none)
    | some ttglyph =>
      let step1 : TTGlyph × List LogMsg × Option PyErr :=
        match glyph.ttdata with
        | some ttdata => compileTTGlyphProgram glyph ttglyph ttdata
        | none => (ttglyph, [], none)
      match step1.2.2 with
      | some e => (glyf, step1.2.1, some e)
      | none =>
        let tt1 := step1.1
        let step2 : TTGlyph × List LogMsg :=
          if tt1.isComposite then setCompositeFlags glyph tt1 else (tt1, [])
        (updateTT glyf n step2.1, step1.2.1 ++ step2.2, none)

/-- Insertion of a string into a sorted list, for sorted(self.ufo.keys()). -/
def insertStr (s : String) : List String → List String
  | [] => [s]
  | t :: ts => if strLt t s then t :: insertStr s ts else s :: t :: ts

/-- Sorting of a list of strings by insertion. -/
def sortStrs (l : List String) : List String :=
  l.foldr insertStr []

/-- The names the glyf compilation iterates over: sorted(self.ufo.keys()). -/
def sortedNames (ufo : UFOFont) : List String :=
  sortStrs (ufo.glyphs.map (fun g => g.name))

/-- The fold of InstructionCompiler.compile_glyf over a list of glyph
names; a raised exception stops the loop and is reported, keeping the
state reached so far. -/
def compileGlyfGo (ufo : UFOFont) :
    List String → List (String × TTGlyph) → List LogMsg →
    List (String × TTGlyph) × List LogMsg × Option PyErr
  | [], glyf, logs => (glyf, logs, none)
  | n :: rest, glyf, logs =>
    let r := compileTTGlyph ufo glyf n
    match r.2.2 with
    | some e => (r.1, logs ++ r.2.1, some e)
    | none => compileGlyfGo ufo rest r.1 (logs ++ r.2.1)

/-- Translation of InstructionCompiler.compile_glyf: process every source
glyph name in sorted order. -/
def compile_glyf (ufo : UFOFont) (font : TTFont) :
    TTFont × List LogMsg × Option PyErr :=
  let r := compileGlyfGo ufo (sortedNames ufo) font.glyf []
  ({ font with glyf := r.1 }, r.2.1, r.2.2)

/-- The two lib keys InstructionCompiler._compile_program may read. -/
inductive ProgKey where
  | fontProgram
  | controlValueProgram
deriving DecidableEq, Repr

/-- Translation of InstructionCompiler._compile_program: nothing happens
unless the font-level metadata dict is present and truthy; then the
format version is converted with int() and checked, and only afterwards
is the table created from the assembly under the key.  The raise happens
before any table write, so on an error the font is returned unchanged. -/
def compileProgram (ufo : UFOFont) (font : TTFont) (key : ProgKey) :
    TTFont × Option PyErr :=
  match ufo.lib with
  | none => (font, none)
  | some ttdata =>
    if ttdata.isTruthy then
      match ttdata.formatVersion with
      | none => (font, some (PyErr.typeError ("int() argument cannot be None")))
      | some v =>
        if v ≠ 1 then
          (font, some (PyErr.notImplementedError ("Unknown formatVersion " ++
            toString v ++ " for instructions in lib key.")))
        else
          let asm :=
            match key with
            | ProgKey.fontProgram => ttdata.fontProgram
            | ProgKey.controlValueProgram => ttdata.controlValueProgram
          match asm with
          | none => (font, none)
          | some a =>
            match key with
            | ProgKey.fontProgram =>
              ({ font with fpgm := some (Program.fromAssembly a) }, none)
            | ProgKey.controlValueProgram =>
              ({ font with prep := some (Program.fromAssembly a) }, none)
    else
      (font, none)

/-- Translation of InstructionCompiler.compile_fpgm. -/
def compile_fpgm (ufo : UFOFont) (font : TTFont) : TTFont × Option PyErr :=
  compileProgram ufo font ProgKey.fontProgram

/-- Translation of InstructionCompiler.compile_prep. -/
def compile_prep (ufo : UFOFont) (font : TTFont) : TTFont × Option PyErr :=
  compileProgram ufo font ProgKey.controlValueProgram

/-- Copy of the maxStorage limit when present. -/
def applyStorage (td : FontTTData) (m : MaxpTable) : MaxpTable :=
  match td.maxStorage with
  | some v => { m with maxStorage := v }
  | none => m

/-- Copy of the maxFunctionDefs limit when present. -/
def applyFunctionDefs (td : FontTTData) (m : MaxpTable) : MaxpTable :=
  match td.maxFunctionDefs with
  | some v => { m with maxFunctionDefs := v }
  | none => m

/-- Copy of the maxInstructionDefs limit when present. -/
def applyInstructionDefs (td : FontTTData) (m : MaxpTable) : MaxpTable :=
  match td.maxInstructionDefs with
  | some v => { m with maxInstructionDefs := v }
  | none => m

/-- Copy of the maxStackElements limit when present. -/
def applyStackElements (td : FontTTData) (m : MaxpTable) : MaxpTable :=
  match td.maxStackElements with
  | some v => { m with maxStackElements := v }
  | none => m

/-- Copy of the maxZones limit when present. -/
def applyZones (td : FontTTData) (m : MaxpTable) : MaxpTable :=
  match td.maxZones with
  | some v => { m with maxZones := v }
  | none => m

/-- Copy of the maxTwilightPoints limit when present. -/
def applyTwilightPoints (td : FontTTData) (m : MaxpTable) : MaxpTable :=
  match td.maxTwilightPoints with
  | some v => { m with maxTwilightPoints := v }
  | none => m

/-- The copy loop of InstructionCompiler.compile_maxp over the six limits
(maxSizeOfInstructions is deliberately not among them: it is recalculated
afterwards). -/
def applyLimits (td : FontTTData) (m : MaxpTable) : MaxpTable :=
  applyTwilightPoints td (applyZones td (applyStackElements td
    (applyInstructionDefs td (applyFunctionDefs td (applyStorage td m)))))

/-- The byte sizes of the programs attached to the compiled glyphs. -/
def programSizes (glyf : List (String × TTGlyph)) : List Nat :=
  glyf.filterMap (fun e => e.2.program.map (fun p => p.bytecode.length))

/-- Maximum of a list of sizes with default 0, for max(sizes, default=0). -/
def maxList : List Nat → Nat
  | [] => 0
  | a :: l => max a (maxList l)

/-- Translation of InstructionCompiler.compile_maxp: copy the six limits
when the font-level metadata dict is present and truthy, then
unconditionally recalculate maxSizeOfInstructions from the attached glyph
programs. -/
def compile_maxp (ufo : UFOFont) (font : TTFont) : TTFont :=
  let m1 :=
    match ufo.lib with
    | none => font.maxp
    | some td => if td.isTruthy then applyLimits td font.maxp else font.maxp
  { font with maxp :=
      { m1 with maxSizeOfInstructions := Int.ofNat (maxList (programSizes font.glyf)) } }

/-- Translation of InstructionCompiler.compile: fpgm, prep, glyf, then
maxp last; a raised exception aborts the sequence. -/
def compile (ufo : UFOFont) (font : TTFont) :
    TTFont × List LogMsg × Option PyErr :=
  let r1 := compile_fpgm ufo font
  match r1.2 with
  | some e => (r1.1, [], some e)
  | none =>
    let r2 := compile_prep ufo r1.1
    match r2.2 with
    | some e => (r2.1, [], some e)
    | none =>
      let r3 := compile_glyf ufo r2.1
      match r3.2.2 with
      | some e => (r3.1, r3.2.1, some e)
      | none => (compile_maxp ufo r3.1, r3.2.1, none)

/-- A component requests the USE_MY_METRICS preference when it carries an
identifier whose per-component lib entry has the useMyMetrics key set to
true (this is exactly the condition under which the source reaches the
USE_MY_METRICS branch). -/
def requestsMetrics (glyph : UFOGlyph) (uc : UFOComponent) : Bool :=
  match uc.identifier with
  | none => false
  | some cid =>
    match lookupComponentLib glyph cid with
    | none => false
    | some clib => clib.useMyMetrics.getD false

end InstrComp

namespace Anchors

/-!
Anchor propagation engine.  The repository file ufo2ft/filters/propagateAnchors.py
is not under src/ (only its tests are), so the engine is modelled from the
specification, section 4.1, checked against the expectations of
src/tests/filters/propagateAnchors_test.py.
-/

/-- A glyph anchor: name and coordinates. -/
structure Anchor where
  name : String
  x : Int
  y : Int
deriving DecidableEq, Repr

/-- A 2x3 affine transform (xx, xy, yx, yy, dx, dy), fontTools layout. -/
structure Transform where
  xx : Int
  xy : Int
  yx : Int
  yy : Int
  dx : Int
  dy : Int
deriving DecidableEq, Repr

/-- Application of the affine transform to a point. -/
def Transform.apply (t : Transform) (x y : Int) : Int × Int :=
  (t.xx * x + t.yx * y + t.dx, t.xy * x + t.yy * y + t.dy)

/-- The identity transform. -/
def identityT : Transform := ⟨1, 0, 0, 1, 0, 0⟩

/-- A pure translation transform. -/
def translateT (dx dy : Int) : Transform := ⟨1, 0, 0, 1, dx, dy⟩

/-- A component reference: base glyph name and affine transform. -/
structure Component where
  baseGlyph : String
  transform : Transform
deriving DecidableEq, Repr

/-- A glyph as the propagation engine sees it: its anchors and component
references (contour data plays no role in propagation beyond the
component test). -/
structure Glyph where
  name : String
  anchors : List Anchor
  components : List Component
deriving DecidableEq, Repr

/-- An anchor name beginning with an underscore marks an attachment
point (a mark anchor). -/
def isMarkName (s : String) : Bool :=
  match s.data with
  | [] => false
  | c :: _ => c == '_'

/-- A glyph whose anchor list contains an attachment-point anchor is a
mark glyph for classification purposes. -/
def isMarkAnchorList (l : List Anchor) : Bool :=
  l.any (fun a => isMarkName a.name)

/-- Lookup of a glyph by name in the glyph set. -/
def lookupGlyph (gs : List Glyph) (n : String) : Option Glyph :=
  gs.find? (fun g => g.name == n)

/-- The engine state of one propagation pass: the glyph set being mutated
in place, and the memoized set of names already fully processed. -/
structure PropState where
  glyphs : List Glyph
  done : List String
deriving Repr

/-- Modelled from the spec: the effective anchors contributed along one
component edge.  A missing base glyph is tolerated as a no-op reference
(section 4.1 failure semantics); a base whose resolution has not
completed (a cyclic contributor, or fuel exhaustion) is treated as
contributing empty anchors for that edge. -/
def edgeAnchors (gs : List Glyph) (done : List String) (c : Component) :
    List Anchor :=
  match lookupGlyph gs c.baseGlyph with
  | none => []
  | some bg => if done.contains c.baseGlyph then bg.anchors else []

/-- A component is a mark component when its resolved base glyph carries
an attachment-point anchor. -/
def isMarkComponent (gs : List Glyph) (done : List String) (c : Component) : Bool :=
  isMarkAnchorList (edgeAnchors gs done c)

/-- The non-mark components of a glyph, in declaration order. -/
def baseComponents (gs : List Glyph) (done : List String)
    (cs : List Component) : List Component :=
  cs.filter (fun c => !isMarkComponent gs done c)

/-- The mark components of a glyph, in declaration order. -/
def markComponents (gs : List Glyph) (done : List String)
    (cs : List Component) : List Component :=
  cs.filter (fun c => isMarkComponent gs done c)

/-- All anchor names contributed by the base components, with duplicates. -/
def namesFromBases (gs : List Glyph) (done : List String)
    (cs : List Component) : List String :=
  (baseComponents gs done cs).foldr
    (fun c acc => (edgeAnchors gs done c).map (fun a => a.name) ++ acc) []

/-- Deduplication of a name list, keeping first occurrences. -/
def dedupStrs : List String → List String
  | [] => []
  | s :: rest => s :: (dedupStrs rest).filter (fun t => !(t == s))

/-- The deduplicated anchor names contributed by the base components. -/
def contribNames (gs : List Glyph) (done : List String)
    (cs : List Component) : List String :=
  dedupStrs (namesFromBases gs done cs)

/-- Presence test for an anchor name in an anchor list. -/
def hasAnchorNamed (l : List Anchor) (n : String) : Bool :=
  l.any (fun a => a.name == n)

/-- Modelled from the spec: position data for an anchor of a given name,
taken from the first base component (in declaration order) whose base
glyph carries an anchor of that name, with the component transform
applied (first-match-wins, section 9). -/
def findAnchorData (gs : List Glyph) (done : List String) :
    List Component → String → Option (Int × Int)
  | [], _ => none
  | c :: rest, an =>
    match (edgeAnchors gs done c).find? (fun a => a.name == an) with
    | some a => some (c.transform.apply a.x a.y)
    | none => findAnchorData gs done rest an

/-- Modelled from the spec: the initial propagated-anchor table of a
glyph, one entry per contributed name not already present among the
anchors of the glyph itself. -/
def initialToAdd (gs : List Glyph) (done : List String) (g : Glyph) :
    List (String × Int × Int) :=
  (contribNames gs done g.components).filterMap (fun an =>
    if hasAnchorNamed g.anchors an then none
    else (findAnchorData gs done (baseComponents gs done g.components) an).map
      (fun p => (an, p.1, p.2)))

/-- Adjustment of the propagated-anchor table by one anchor of a mark
component: a non-attachment anchor whose name is already tabled moves the
tabled entry to the transformed position of the mark anchor, aligning
diacritic stacking; no new names are ever added here. -/
def adjustOne (c : Component) (a : Anchor) (td : List (String × Int × Int)) :
    List (String × Int × Int) :=
  if isMarkName a.name then td
  else if td.any (fun e => e.1 == a.name) then
    td.map (fun e =>
      if e.1 == a.name then
        (a.name, (c.transform.apply a.x a.y).1, (c.transform.apply a.x a.y).2)
      else e)
  else td

/-- Adjustment of the propagated-anchor table by a whole mark component. -/
def adjustForMark (gs : List Glyph) (done : List String)
    (td : List (String × Int × Int)) (c : Component) :
    List (String × Int × Int) :=
  (edgeAnchors gs done c).foldl (fun t a => adjustOne c a t) td

/-- Modelled from the spec: the full propagated-anchor table of a glyph:
the initial table from the base components, adjusted by every mark
component in declaration order. -/
def toAddFor (gs : List Glyph) (done : List String) (g : Glyph) :
    List (String × Int × Int) :=
  (markComponents gs done g.components).foldl (adjustForMark gs done)
    (initialToAdd gs done g)

/-- Insertion of an anchor into a list sorted by name. -/
def insertAnchor (a : Anchor) : List Anchor → List Anchor
  | [] => [a]
  | b :: bs =>
    if strLt b.name a.name then b :: insertAnchor a bs else a :: b :: bs

/-- The propagated anchors, appended in a deterministic name-sorted order
(the order the tests of the repository exhibit). -/
def sortToAdd (td : List (String × Int × Int)) : List Anchor :=
  (td.map (fun e => (⟨e.1, e.2.1, e.2.2⟩ : Anchor))).foldr insertAnchor []

/-- Appending of propagated anchors to the named glyph of the set. -/
def appendAnchors (gs : List Glyph) (n : String) (extra : List Anchor) :
    List Glyph :=
  gs.map (fun g =>
    if g.name == n then { g with anchors := g.anchors ++ extra } else g)

/-- Modelled from the spec: depth-first resolution of the effective
anchors of one glyph (section 4.1): memoized per glyph name via the done
set, guarded against cycles via the visiting set (a cyclic contributor
is skipped, contributing empty anchors along that edge), components
resolved first, then the merged propagated anchors appended.  Fuel makes
the recursion structural; any fuel at least the glyph count is enough. -/
def propagate (fuel : Nat) (visiting : List String) (name : String)
    (st : PropState) : PropState :=
  match fuel with
  | 0 => st
  | Nat.succ f =>
    if st.done.contains name || visiting.contains name then st
    else
      match lookupGlyph st.glyphs name with
      | none => ⟨st.glyphs, name :: st.done⟩
      | some g =>
        if g.components.isEmpty then ⟨st.glyphs, name :: st.done⟩
        else
          let st1 := g.components.foldl
            (fun s c => propagate f (name :: visiting) c.baseGlyph s) st
          match lookupGlyph st1.glyphs name with
          | none => ⟨st1.glyphs, name :: st1.done⟩
          | some g1 =>
            let extra := sortToAdd (toAddFor st1.glyphs st1.done g1)
            ⟨appendAnchors st1.glyphs name extra, name :: st1.done⟩

/-- The resolution of a list of component edges in order (the inner fold
of propagate, named for reasoning). -/
def propagateComps (fuel : Nat) (visiting : List String)
    (cs : List Component) (st : PropState) : PropState :=
  cs.foldl (fun s c => propagate fuel visiting c.baseGlyph s) st

/-- Inclusion test of the optional include filter of the filter object. -/
def includeName (incl : Option (List String)) (n : String) : Bool :=
  match incl with
  | none => true
  | some l => l.contains n

/-- The glyph names one filter run visits, in glyph set order (a
deterministic order, per section 4.1). -/
def filterNames (incl : Option (List String)) (gs : List Glyph) : List String :=
  (gs.map (fun g => g.name)).filter (includeName incl)

/-- Anchor list of a named glyph, empty when absent. -/
def anchorsOf (gs : List Glyph) (n : String) : List Anchor :=
  ((lookupGlyph gs n).map (fun g => g.anchors)).getD []

/-- The filter loop: each included glyph with at least one component is
propagated, and reported as modified exactly when its anchor list grew
(glyphs with no components, hence empty and pure-contour glyphs, are
skipped and never reported). -/
def runGo (fuel : Nat) : List String → PropState → List String →
    PropState × List String
  | [], st, mods => (st, mods)
  | n :: rest, st, mods =>
    match lookupGlyph st.glyphs n with
    | none => runGo fuel rest st mods
    | some g =>
      if g.components.isEmpty then runGo fuel rest st mods
      else
        let before := g.anchors.length
        let st2 := propagate fuel [] n st
        let after := (anchorsOf st2.glyphs n).length
        runGo fuel rest st2 (if before < after then mods ++ [n] else mods)

/-- Modelled from the spec: one run of the PropagateAnchorsFilter over a
glyph set with an optional include filter; returns the mutated glyph set
and the names of the glyphs actually modified. -/
def propagateAnchorsFilter (incl : Option (List String)) (gs : List Glyph) :
    List Glyph × List String :=
  let r := runGo gs.length (filterNames incl gs) ⟨gs, []⟩ []
  (r.1.glyphs, r.2)

/-- The name-and-components shape of a glyph set, which propagation never
changes. -/
def shapeOf (gs : List Glyph) : List (String × List Component) :=
  gs.map (fun g => (g.name, g.components))

/-- Coordinates of the first anchor of a given name. -/
def findAnchorXY (l : List Anchor) (n : String) : Option (Int × Int) :=
  (l.find? (fun a => a.name == n)).map (fun a => (a.x, a.y))

/-- The glyph set of the nested-stacking scenario (claim C5, matching the
fixture of src/tests/filters/propagateAnchors_test.py). -/
def nestedFont : List Glyph :=
  [ ⟨"a", [⟨"top", 175, 300⟩, ⟨"bottom", 175, 0⟩], []⟩,
    ⟨"dieresiscomb", [⟨"_top", 0, 300⟩, ⟨"top", 0, 480⟩], []⟩,
    ⟨"macroncomb", [⟨"_top", 0, 300⟩, ⟨"top", 0, 480⟩], []⟩,
    ⟨"amacron", [], [⟨"a", identityT⟩, ⟨"macroncomb", translateT 175 0⟩]⟩,
    ⟨"amacrondieresis", [],
      [⟨"amacron", identityT⟩, ⟨"dieresiscomb", translateT 175 180⟩]⟩ ]

end Anchors

namespace InstrComp

/-- A maxp table with twelve distinct field values, used as concrete
input. -/
def sampleMaxp : MaxpTable := ⟨1, 2, 3, 4, 5, 6, 7, 8, 9, 10, 11, 12⟩

/-- Concrete composite source glyph whose first requesting component has
the empty string as identifier. -/
def cxGlyph : UFOGlyph :=
  ⟨"g", 100, [], [⟨"b1", some ""⟩, ⟨"b2", some "B"⟩], none,
   some [("", ⟨none, some true⟩), ("B", ⟨none, some true⟩)], none⟩

/-- Concrete compiled composite glyph with two components and clear
flags. -/
def twoCompTT : TTGlyph := ⟨none, [⟨0⟩, ⟨0⟩]⟩

/-- Concrete composite source glyph with two requesting components whose
identifiers are nonempty. -/
def wGlyph : UFOGlyph :=
  ⟨"g", 100, [], [⟨"b1", some "A"⟩, ⟨"b2", some "B"⟩], none,
   some [("A", ⟨none, some true⟩), ("B", ⟨none, some true⟩)], none⟩

/-- Concrete compiled font with two attached glyph programs of sizes 3
and 1. -/
def sizesFont : TTFont :=
  ⟨[("x", ⟨some ⟨[1, 2, 3]⟩, []⟩), ("y", ⟨none, []⟩), ("z", ⟨some ⟨[7]⟩, []⟩)],
   none, none, sampleMaxp⟩

/-- Concrete UFO supplying maxStorage and an externally supplied
maxSizeOfInstructions that must be ignored. -/
def limitsUFO : UFOFont :=
  ⟨[], some ⟨some 1, none, none, some 77, none, none, none, none, none, some 999⟩⟩

/-- Concrete source glyph whose stored hash id cannot match the computed
hash. -/
def hashGlyph : UFOGlyph :=
  ⟨"h", 100, [[⟨0, 0, true⟩, ⟨1, 2, false⟩]], [],
   some ⟨some 1, some "nope", some "PUSH"⟩, none, none⟩

/-- Concrete UFO holding only the hash-mismatch glyph. -/
def hashUFO : UFOFont := ⟨[hashGlyph], none⟩

/-- Concrete compiled font holding the glyph of the hash-mismatch UFO,
with no program attached. -/
def hashFont : TTFont := ⟨[("h", ⟨none, []⟩)], none, none, sampleMaxp⟩

/-- Concrete font-level metadata with formatVersion 2. -/
def fmt2UFO : UFOFont :=
  ⟨[], some ⟨some 2, some "F", some "C", none, none, none, none, none, none, none⟩⟩

/-- Concrete source glyph carrying instruction metadata with
formatVersion 2. -/
def fmt2Glyph : UFOGlyph :=
  ⟨"q", 10, [], [], some ⟨some 2, some "id", some "A"⟩, none, none⟩

/-- Concrete UFO holding only the formatVersion 2 glyph. -/
def fmt2GlyphUFO : UFOFont := ⟨[fmt2Glyph], none⟩

/-- Concrete source glyph whose instruction metadata block has no
formatVersion key. -/
def noFmtGlyph : UFOGlyph :=
  ⟨"q", 10, [], [], some ⟨none, none, none⟩, none, none⟩

/-- Concrete UFO holding only the glyph with the formatVersion-less
block. -/
def noFmtUFO : UFOFont := ⟨[noFmtGlyph], none⟩

/-- Concrete compiled font holding the glyph named q. -/
def qFont : TTFont := ⟨[("q", ⟨none, []⟩)], none, none, sampleMaxp⟩

/-- Concrete UFO whose font-level instruction metadata block is an empty
dict. -/
def emptyLibUFO : UFOFont := ⟨[], some FontTTData.emptyDict⟩

/-- Concrete source glyph with no components. -/
def noCompGlyph : UFOGlyph := ⟨"m", 10, [], [], none, none, none⟩

/-- Concrete compiled glyph with one component. -/
def oneCompTT : TTGlyph := ⟨none, [⟨0⟩]⟩

/-- Concrete source glyph with one identifier-less component and the
overlap key set to true. -/
def overlapGlyph : UFOGlyph :=
  ⟨"o", 10, [], [⟨"b", none⟩], none, none, some true⟩

end InstrComp

namespace InstrComp

theorem maxList_ge (l : List Nat) (a : Nat) (h : a ∈ l) : a ≤ maxList l := by
  induction l with
  | nil => cases h
  | cons b t ih =>
    rcases List.mem_cons.mp h with h1 | h2
    · subst h1; exact Nat.le_max_left _ _
    · exact Nat.le_trans (ih h2) (Nat.le_max_right _ _)

theorem maxList_attained (l : List Nat) (h : l ≠ []) : maxList l ∈ l := by
  induction l with
  | nil => exact absurd rfl h
  | cons b t ih =>
    by_cases ht : t = []
    · subst ht; simp [maxList]
    · rcases Nat.le_total (maxList t) b with h1 | h1
      · have : maxList (b :: t) = b := by
          simp [maxList, Nat.max_eq_left h1]
        rw [this]; exact List.mem_cons_self _ _
      · have : maxList (b :: t) = maxList t := by
          simp [maxList, Nat.max_eq_right h1]
        rw [this]; exact List.mem_cons_of_mem _ (ih ht)

theorem mem_programSizes (glyf : List (String × TTGlyph)) (a : Nat) :
    a ∈ programSizes glyf ↔
      ∃ e ∈ glyf, ∃ p, e.2.program = some p ∧ p.bytecode.length = a := by
  simp only [programSizes, List.mem_filterMap, Option.map_eq_some']

theorem compile_maxp_maxSize (ufo : UFOFont) (font : TTFont) :
    (compile_maxp ufo font).maxp.maxSizeOfInstructions =
      Int.ofNat (maxList (programSizes font.glyf)) := rfl

/-- C3: after compile_maxp runs, maxp.maxSizeOfInstructions equals the
maximum, over every compiled glyph in the glyf table that has a program
attribute, of the encoded-byte length of that program, and equals 0 when
no glyph has a program, for every input and regardless of any
maxSizeOfInstructions value supplied in the font-level instruction
metadata. -/
theorem compile_maxp_maxSizeOfInstructions_correct (ufo : UFOFont) (font : TTFont) :
    (∀ e ∈ font.glyf, ∀ p, e.2.program = some p →
       Int.ofNat p.bytecode.length ≤ (compile_maxp ufo font).maxp.maxSizeOfInstructions) ∧
    ((∃ e ∈ font.glyf, e.2.program.isSome) →
       ∃ e ∈ font.glyf, ∃ p, e.2.program = some p ∧
         Int.ofNat p.bytecode.length = (compile_maxp ufo font).maxp.maxSizeOfInstructions) ∧
    ((∀ e ∈ font.glyf, e.2.program = none) →
       (compile_maxp ufo font).maxp.maxSizeOfInstructions = 0) := by
  rw [compile_maxp_maxSize]
  refine ⟨?_, ?_, ?_⟩
  · intro e he p hp
    have hmem : p.bytecode.length ∈ programSizes font.glyf :=
      (mem_programSizes font.glyf _).mpr ⟨e, he, p, hp, rfl⟩
    exact Int.ofNat_le.mpr (maxList_ge _ _ hmem)
  · rintro ⟨e, he, hs⟩
    rcases Option.isSome_iff_exists.mp hs with ⟨p, hp⟩
    have hne : programSizes font.glyf ≠ [] := by
      intro h0
      have : p.bytecode.length ∈ programSizes font.glyf :=
        (mem_programSizes font.glyf _).mpr ⟨e, he, p, hp, rfl⟩
      rw [h0] at this; cases this
    have := maxList_attained _ hne
    rcases (mem_programSizes font.glyf _).mp this with ⟨e2, he2, p2, hp2, hl2⟩
    exact ⟨e2, he2, p2, hp2, by rw [hl2]⟩
  · intro hall
    have : programSizes font.glyf = [] := by
      apply List.filterMap_eq_nil_iff.mpr
      intro e he
      rw [hall e he]
      rfl
    rw [this]
    rfl

/-- Witness for C3 at a concrete font: the recomputed value is attained
and bounds every program size. -/
theorem compile_maxp_maxSizeOfInstructions_correct_witness :
    ∃ e ∈ sizesFont.glyf, ∃ p, e.2.program = some p ∧
      Int.ofNat p.bytecode.length = (compile_maxp limitsUFO sizesFont).maxp.maxSizeOfInstructions :=
  (compile_maxp_maxSizeOfInstructions_correct limitsUFO sizesFont).2.1
    ⟨("x", ⟨some ⟨[1, 2, 3]⟩, []⟩), by decide, by decide⟩

theorem applyLimits_fields (td : FontTTData) (m : MaxpTable) :
    (applyLimits td m).maxStorage = td.maxStorage.getD m.maxStorage ∧
    (applyLimits td m).maxFunctionDefs = td.maxFunctionDefs.getD m.maxFunctionDefs ∧
    (applyLimits td m).maxInstructionDefs = td.maxInstructionDefs.getD m.maxInstructionDefs ∧
    (applyLimits td m).maxStackElements = td.maxStackElements.getD m.maxStackElements ∧
    (applyLimits td m).maxZones = td.maxZones.getD m.maxZones ∧
    (applyLimits td m).maxTwilightPoints = td.maxTwilightPoints.getD m.maxTwilightPoints ∧
    (applyLimits td m).maxSizeOfInstructions = m.maxSizeOfInstructions ∧
    (applyLimits td m).numGlyphs = m.numGlyphs ∧
    (applyLimits td m).maxPoints = m.maxPoints ∧
    (applyLimits td m).maxContours = m.maxContours ∧
    (applyLimits td m).maxComponentElements = m.maxComponentElements ∧
    (applyLimits td m).maxComponentDepth = m.maxComponentDepth := by
  obtain ⟨a1, a2, a3, b1, b2, b3, b4, b5, b6, a4⟩ := td
  rcases b1 with _ | v1 <;> rcases b2 with _ | v2 <;> rcases b3 with _ | v3 <;>
    rcases b4 with _ | v4 <;> rcases b5 with _ | v5 <;> rcases b6 with _ | v6 <;>
    simp [applyLimits, applyStorage, applyFunctionDefs, applyInstructionDefs,
      applyStackElements, applyZones, applyTwilightPoints]

theorem compile_maxp_fields (ufo : UFOFont) (font : TTFont) (td : FontTTData)
    (h : ufo.lib = some td) :
    (compile_maxp ufo font).maxp.maxStorage = td.maxStorage.getD font.maxp.maxStorage ∧
    (compile_maxp ufo font).maxp.maxFunctionDefs = td.maxFunctionDefs.getD font.maxp.maxFunctionDefs ∧
    (compile_maxp ufo font).maxp.maxInstructionDefs = td.maxInstructionDefs.getD font.maxp.maxInstructionDefs ∧
    (compile_maxp ufo font).maxp.maxStackElements = td.maxStackElements.getD font.maxp.maxStackElements ∧
    (compile_maxp ufo font).maxp.maxZones = td.maxZones.getD font.maxp.maxZones ∧
    (compile_maxp ufo font).maxp.maxTwilightPoints = td.maxTwilightPoints.getD font.maxp.maxTwilightPoints ∧
    (compile_maxp ufo font).maxp.numGlyphs = font.maxp.numGlyphs ∧
    (compile_maxp ufo font).maxp.maxPoints = font.maxp.maxPoints ∧
    (compile_maxp ufo font).maxp.maxContours = font.maxp.maxContours ∧
    (compile_maxp ufo font).maxp.maxComponentElements = font.maxp.maxComponentElements ∧
    (compile_maxp ufo font).maxp.maxComponentDepth = font.maxp.maxComponentDepth := by
  have hf := applyLimits_fields td font.maxp
  by_cases ht : td.isTruthy
  · have hone : td.maxStorage.isSome = true ∨ td.maxStorage = none := by
      cases td.maxStorage <;> simp
    simp only [compile_maxp, h, ht, if_true]
    exact ⟨hf.1, hf.2.1, hf.2.2.1, hf.2.2.2.1, hf.2.2.2.2.1, hf.2.2.2.2.2.1,
      hf.2.2.2.2.2.2.2.1, hf.2.2.2.2.2.2.2.2.1, hf.2.2.2.2.2.2.2.2.2.1,
      hf.2.2.2.2.2.2.2.2.2.2.1, hf.2.2.2.2.2.2.2.2.2.2.2⟩
  · have hb : td.isTruthy = false := by
      cases hx : td.isTruthy
      · rfl
      · exact absurd hx ht
    have h1 : td.maxStorage = none := by
      cases hx : td.maxStorage
      · rfl
      · exfalso; apply ht; simp [FontTTData.isTruthy, hx]
    have h2 : td.maxFunctionDefs = none := by
      cases hx : td.maxFunctionDefs
      · rfl
      · exfalso; apply ht; simp [FontTTData.isTruthy, hx]
    have h3 : td.maxInstructionDefs = none := by
      cases hx : td.maxInstructionDefs
      · rfl
      · exfalso; apply ht; simp [FontTTData.isTruthy, hx]
    have h4 : td.maxStackElements = none := by
      cases hx : td.maxStackElements
      · rfl
      · exfalso; apply ht; simp [FontTTData.isTruthy, hx]
    have h5 : td.maxZones = none := by
      cases hx : td.maxZones
      · rfl
      · exfalso; apply ht; simp [FontTTData.isTruthy, hx]
    have h6 : td.maxTwilightPoints = none := by
      cases hx : td.maxTwilightPoints
      · rfl
      · exfalso; apply ht; simp [FontTTData.isTruthy, hx]
    simp only [compile_maxp, h, hb, if_false, h1, h2, h3, h4, h5, h6, Option.getD_none]
    exact ⟨rfl, rfl, rfl, rfl, rfl, rfl, rfl, rfl, rfl, rfl, rfl⟩

/-- C9: when font-level instruction metadata is present, compile_maxp
copies each of the six limits verbatim into the maxp table exactly when
present in the metadata; each absent limit keeps its prior value, and no
maxp field other than these six and maxSizeOfInstructions changes. -/
theorem compile_maxp_copies_limits (ufo : UFOFont) (font : TTFont) (td : FontTTData)
    (h : ufo.lib = some td) :
    ((∀ v, td.maxStorage = some v → (compile_maxp ufo font).maxp.maxStorage = v) ∧
     (td.maxStorage = none → (compile_maxp ufo font).maxp.maxStorage = font.maxp.maxStorage)) ∧
    ((∀ v, td.maxFunctionDefs = some v → (compile_maxp ufo font).maxp.maxFunctionDefs = v) ∧
     (td.maxFunctionDefs = none → (compile_maxp ufo font).maxp.maxFunctionDefs = font.maxp.maxFunctionDefs)) ∧
    ((∀ v, td.maxInstructionDefs = some v → (compile_maxp ufo font).maxp.maxInstructionDefs = v) ∧
     (td.maxInstructionDefs = none → (compile_maxp ufo font).maxp.maxInstructionDefs = font.maxp.maxInstructionDefs)) ∧
    ((∀ v, td.maxStackElements = some v → (compile_maxp ufo font).maxp.maxStackElements = v) ∧
     (td.maxStackElements = none → (compile_maxp ufo font).maxp.maxStackElements = font.maxp.maxStackElements)) ∧
    ((∀ v, td.maxZones = some v → (compile_maxp ufo font).maxp.maxZones = v) ∧
     (td.maxZones = none → (compile_maxp ufo font).maxp.maxZones = font.maxp.maxZones)) ∧
    ((∀ v, td.maxTwilightPoints = some v → (compile_maxp ufo font).maxp.maxTwilightPoints = v) ∧
     (td.maxTwilightPoints = none → (compile_maxp ufo font).maxp.maxTwilightPoints = font.maxp.maxTwilightPoints)) ∧
    ((compile_maxp ufo font).maxp.numGlyphs = font.maxp.numGlyphs ∧
     (compile_maxp ufo font).maxp.maxPoints = font.maxp.maxPoints ∧
     (compile_maxp ufo font).maxp.maxContours = font.maxp.maxContours ∧
     (compile_maxp ufo font).maxp.maxComponentElements = font.maxp.maxComponentElements ∧
     (compile_maxp ufo font).maxp.maxComponentDepth = font.maxp.maxComponentDepth) := by
  have hf := compile_maxp_fields ufo font td h
  refine ⟨⟨?_, ?_⟩, ⟨?_, ?_⟩, ⟨?_, ?_⟩, ⟨?_, ?_⟩, ⟨?_, ?_⟩, ⟨?_, ?_⟩, ?_, ?_, ?_, ?_, ?_⟩
  · intro v hv; rw [hf.1, hv]; rfl
  · intro hv; rw [hf.1, hv]; rfl
  · intro v hv; rw [hf.2.1, hv]; rfl
  · intro hv; rw [hf.2.1, hv]; rfl
  · intro v hv; rw [hf.2.2.1, hv]; rfl
  · intro hv; rw [hf.2.2.1, hv]; rfl
  · intro v hv; rw [hf.2.2.2.1, hv]; rfl
  · intro hv; rw [hf.2.2.2.1, hv]; rfl
  · intro v hv; rw [hf.2.2.2.2.1, hv]; rfl
  · intro hv; rw [hf.2.2.2.2.1, hv]; rfl
  · intro v hv; rw [hf.2.2.2.2.2.1, hv]; rfl
  · intro hv; rw [hf.2.2.2.2.2.1, hv]; rfl
  · exact hf.2.2.2.2.2.2.1
  · exact hf.2.2.2.2.2.2.2.1
  · exact hf.2.2.2.2.2.2.2.2.1
  · exact hf.2.2.2.2.2.2.2.2.2.1
  · exact hf.2.2.2.2.2.2.2.2.2.2

/-- Witness for C9 at a concrete input: the present limit is copied, an
absent one keeps its prior value, and a frame field is untouched. -/
theorem compile_maxp_copies_limits_witness :
    (compile_maxp limitsUFO sizesFont).maxp.maxStorage = 77 ∧
    (compile_maxp limitsUFO sizesFont).maxp.maxFunctionDefs = sizesFont.maxp.maxFunctionDefs ∧
    (compile_maxp limitsUFO sizesFont).maxp.numGlyphs = sizesFont.maxp.numGlyphs := by
  have h := compile_maxp_copies_limits limitsUFO sizesFont
    ⟨some 1, none, none, some 77, none, none, none, none, none, some 999⟩ rfl
  exact ⟨h.1.1 77 rfl, h.2.1.2 rfl, h.2.2.2.2.2.2.1⟩

/-- C7: for every composite glyph whose compiled and source component
counts differ, _set_composite_flags logs an error and returns without
modifying any component flags, raising nothing. -/
theorem setCompositeFlags_count_mismatch (glyph : UFOGlyph) (ttglyph : TTGlyph)
    (h : ttglyph.components.length ≠ glyph.components.length) :
    (setCompositeFlags glyph ttglyph).1.components = ttglyph.components ∧
    (setCompositeFlags glyph ttglyph).2 =
      [⟨LogLevel.error, countMismatchMsg glyph.name⟩] := by
  unfold setCompositeFlags
  cases hp : ttglyph.program with
  | none => simp [h]
  | some p =>
    by_cases hb : p.isTruthy
    · simp [hb, h]
    · have hb2 : p.isTruthy = false := by
        cases hx : p.isTruthy
        · rfl
        · exact absurd hx hb
      simp [hb2, h]

/-- Witness for C7 at a concrete input with 1 compiled component against
0 source components. -/
theorem setCompositeFlags_count_mismatch_witness :
    (setCompositeFlags noCompGlyph oneCompTT).1.components = oneCompTT.components ∧
    (setCompositeFlags noCompGlyph oneCompTT).2 =
      [⟨LogLevel.error, countMismatchMsg noCompGlyph.name⟩] :=
  setCompositeFlags_count_mismatch noCompGlyph oneCompTT (by decide)

theorem testBit_setBit_self (f b k : Nat) (h : b = 2 ^ k) :
    (setBit f b).testBit k = true := by
  subst h
  simp [setBit, Nat.testBit_or, Nat.testBit_two_pow_self]

theorem testBit_setBit_other (f b k j : Nat) (h : b = 2 ^ k) (hj : k ≠ j) :
    (setBit f b).testBit j = f.testBit j := by
  subst h
  simp [setBit, Nat.testBit_or, Nat.testBit_two_pow_of_ne hj]

theorem testBit_clearBit_self (f b k : Nat) (h : b = 2 ^ k) :
    (clearBit f b).testBit k = false := by
  subst h
  simp [clearBit, Nat.testBit_xor, Nat.testBit_and, Nat.testBit_two_pow_self]

theorem testBit_clearBit_other (f b k j : Nat) (h : b = 2 ^ k) (hj : k ≠ j) :
    (clearBit f b).testBit j = f.testBit j := by
  subst h
  simp [clearBit, Nat.testBit_xor, Nat.testBit_and, Nat.testBit_two_pow_of_ne hj]

theorem ROUND_eq : ROUND_XY_TO_GRID = 2 ^ 2 := by decide

theorem METRICS_eq : USE_MY_METRICS = 2 ^ 9 := by decide

theorem OVERLAP_eq : OVERLAP_COMPOUND = 2 ^ 10 := by decide

theorem zip_getElem? {α β : Type} (l1 : List α) (l2 : List β) (i : Nat) :
    (l1.zip l2)[i]? = (l1[i]?).bind (fun a => (l2[i]?).map (fun b => (a, b))) := by
  induction l1 generalizing l2 i with
  | nil => simp
  | cons a t ih =>
    cases l2 with
    | nil => simp
    | cons b t2 =>
      cases i with
      | zero => simp
      | succ j => simpa using ih t2 j

theorem processComponent_bit10_pos (glyph : UFOGlyph) (i : Nat) (c : TTComponent)
    (uc : UFOComponent) (umm : Option String) (hi : i ≠ 0) :
    (processComponent glyph i c uc umm).1.flags.testBit 10 = c.flags.testBit 10 := by
  have hi2 : (i == 0) = false := by
    cases i
    · exact absurd rfl hi
    · rfl
  obtain ⟨bg, oid⟩ := uc
  cases oid with
  | none => simp [processComponent, hi2]
  | some cid =>
    cases hlib : lookupComponentLib glyph cid with
    | none => simp [processComponent, hi2, hlib]
    | some clib =>
      by_cases h1 : (clib.roundOffsetToGrid.isSome || clib.useMyMetrics.isSome) = true
      · by_cases h2 : clib.roundOffsetToGrid.getD true = true
        · by_cases h3 : clib.useMyMetrics.getD false = true
          · by_cases h4 : strTruthy umm = true
            · simp [processComponent, hi2, hlib, h1, h2, h3, h4,
                testBit_clearBit_other _ _ 9 10 METRICS_eq (by decide),
                testBit_setBit_other _ _ 2 10 ROUND_eq (by decide)]
            · simp [processComponent, hi2, hlib, h1, h2, h3,
                Bool.eq_false_iff.mpr h4,
                testBit_setBit_other _ _ 9 10 METRICS_eq (by decide),
                testBit_clearBit_other _ _ 9 10 METRICS_eq (by decide),
                testBit_setBit_other _ _ 2 10 ROUND_eq (by decide)]
          · simp [processComponent, hi2, hlib, h1, h2,
              Bool.eq_false_iff.mpr h3,
              testBit_setBit_other _ _ 2 10 ROUND_eq (by decide)]
        · by_cases h3 : clib.useMyMetrics.getD false = true
          · by_cases h4 : strTruthy umm = true
            · simp [processComponent, hi2, hlib, h1,
                Bool.eq_false_iff.mpr h2, h3, h4,
                testBit_clearBit_other _ _ 9 10 METRICS_eq (by decide),
                testBit_clearBit_other _ _ 2 10 ROUND_eq (by decide)]
            · simp [processComponent, hi2, hlib, h1,
                Bool.eq_false_iff.mpr h2, h3, Bool.eq_false_iff.mpr h4,
                testBit_setBit_other _ _ 9 10 METRICS_eq (by decide),
                testBit_clearBit_other _ _ 9 10 METRICS_eq (by decide),
                testBit_clearBit_other _ _ 2 10 ROUND_eq (by decide)]
          · simp [processComponent, hi2, hlib, h1,
              Bool.eq_false_iff.mpr h2, Bool.eq_false_iff.mpr h3,
              testBit_clearBit_other _ _ 2 10 ROUND_eq (by decide)]
      · simp [processComponent, hi2, hlib, Bool.eq_false_iff.mpr h1]

theorem processComponent_bit10_zero (glyph : UFOGlyph) (c : TTComponent)
    (uc : UFOComponent) (umm : Option String) :
    (glyph.overlap = some true →
      (processComponent glyph 0 c uc umm).1.flags.testBit 10 = true) ∧
    (glyph.overlap = some false →
      (processComponent glyph 0 c uc umm).1.flags.testBit 10 = false) ∧
    (glyph.overlap = none →
      (processComponent glyph 0 c uc umm).1.flags.testBit 10 = c.flags.testBit 10) := by
  have hbase : ∀ f : Nat,
      (processComponent glyph 0 c uc umm).1.flags =
        (match glyph.overlap with
         | none =>
             (processComponent glyph 1 c uc umm).1.flags
         | some b =>
             if b then setBit (processComponent glyph 1 c uc umm).1.flags OVERLAP_COMPOUND
             else clearBit (processComponent glyph 1 c uc umm).1.flags OVERLAP_COMPOUND) := by
    intro _
    unfold processComponent
    rfl
  refine ⟨?_, ?_, ?_⟩
  · intro h
    rw [hbase 0, h]
    exact testBit_setBit_self _ _ 10 OVERLAP_eq
  · intro h
    rw [hbase 0, h]
    exact testBit_clearBit_self _ _ 10 OVERLAP_eq
  · intro h
    rw [hbase 0, h]
    exact processComponent_bit10_pos glyph 1 c uc umm (by decide)

theorem flagsGo_length (glyph : UFOGlyph) (ps : List (TTComponent × UFOComponent))
    (i : Nat) (umm : Option String) :
    (flagsGo glyph i umm ps).1.length = ps.length := by
  induction ps generalizing i umm with
  | nil => rfl
  | cons p rest ih =>
    obtain ⟨c, uc⟩ := p
    simp [flagsGo, ih]

theorem flagsGo_bit10_of_pos (glyph : UFOGlyph) :
    ∀ (ps : List (TTComponent × UFOComponent)) (i : Nat) (umm : Option String)
      (j : Nat), 0 < i + j →
      ((flagsGo glyph i umm ps).1[j]?).map (fun c => c.flags.testBit 10) =
        (ps[j]?).map (fun e => e.1.flags.testBit 10) := by
  intro ps
  induction ps with
  | nil => intro i umm j hj; rfl
  | cons p rest ih =>
    intro i umm j hj
    obtain ⟨c, uc⟩ := p
    cases j with
    | zero =>
      have hi : i ≠ 0 := by omega
      simp [flagsGo, processComponent_bit10_pos glyph i c uc umm hi]
    | succ k =>
      simp only [flagsGo, List.getElem?_cons_succ]
      exact ih (i + 1) _ k (by omega)

/-- C8: with matching component counts, _set_composite_flags touches the
OVERLAP_COMPOUND bit only on the component at position 0: a present
overlap key sets or clears the bit according to its value, an absent key
leaves the bit alone, and components at other positions never have the
bit modified. -/
theorem setCompositeFlags_overlap_first_only (glyph : UFOGlyph) (ttglyph : TTGlyph)
    (hlen : ttglyph.components.length = glyph.components.length) :
    (∀ j, 0 < j →
      ((setCompositeFlags glyph ttglyph).1.components[j]?).map
          (fun c => c.flags.testBit 10) =
        (ttglyph.components[j]?).map (fun c => c.flags.testBit 10)) ∧
    (∀ c0, ttglyph.components[0]? = some c0 →
      (glyph.overlap = some true →
        ((setCompositeFlags glyph ttglyph).1.components[0]?).map
            (fun c => c.flags.testBit 10) = some true) ∧
      (glyph.overlap = some false →
        ((setCompositeFlags glyph ttglyph).1.components[0]?).map
            (fun c => c.flags.testBit 10) = some false) ∧
      (glyph.overlap = none →
        ((setCompositeFlags glyph ttglyph).1.components[0]?).map
            (fun c => c.flags.testBit 10) = some (c0.flags.testBit 10))) := by
  have hcomps : (setCompositeFlags glyph ttglyph).1.components =
      (flagsGo glyph 0 none (ttglyph.components.zip glyph.components)).1 := by
    unfold setCompositeFlags
    cases hp : ttglyph.program with
    | none => simp [hlen]
    | some p =>
      by_cases hb : p.isTruthy
      · simp [hb, hlen]
      · have hb2 : p.isTruthy = false := by
          cases hx : p.isTruthy
          · rfl
          · exact absurd hx hb
        simp [hb2, hlen]
  constructor
  · intro j hj
    rw [hcomps, flagsGo_bit10_of_pos glyph _ 0 none j (by omega),
      zip_getElem?]
    cases h1 : ttglyph.components[j]? with
    | none => rfl
    | some c =>
      have h2 : j < glyph.components.length := by
        rw [← hlen]
        exact List.getElem?_eq_some_iff.mp h1 |>.choose
      cases h3 : glyph.components[j]? with
      | none =>
        rw [List.getElem?_eq_none_iff] at h3
        omega
      | some uc => rfl
  · intro c0 h0
    have huc : ∃ uc0, glyph.components[0]? = some uc0 := by
      have h2 : 0 < glyph.components.length := by
        rw [← hlen]
        exact List.getElem?_eq_some_iff.mp h0 |>.choose
      exact ⟨_, List.getElem?_eq_getElem h2⟩
    obtain ⟨uc0, huc0⟩ := huc
    have hzip : (ttglyph.components.zip glyph.components)[0]? = some (c0, uc0) := by
      rw [zip_getElem?, h0, huc0]
      rfl
    have hhead : ((setCompositeFlags glyph ttglyph).1.components[0]?) =
        some (processComponent glyph 0 c0 uc0 none).1 := by
      rw [hcomps]
      cases hzz : ttglyph.components.zip glyph.components with
      | nil => rw [hzz] at hzip; cases hzip
      | cons q qs =>
        rw [hzz] at hzip
        simp only [List.getElem?_cons_zero, Option.some_inj] at hzip
        subst hzip
        simp [flagsGo]
    have hb := processComponent_bit10_zero glyph c0 uc0 none
    refine ⟨?_, ?_, ?_⟩
    · intro h
      rw [hhead]
      simp [hb.1 h]
    · intro h
      rw [hhead]
      simp [hb.2.1 h]
    · intro h
      rw [hhead]
      simp [hb.2.2 h]

/-- Witness for C8 at a concrete composite with an overlap key set to
true: the first component gets the bit. -/
theorem setCompositeFlags_overlap_first_only_witness :
    ((setCompositeFlags overlapGlyph oneCompTT).1.components[0]?).map
        (fun c => c.flags.testBit 10) = some true :=
  ((setCompositeFlags_overlap_first_only overlapGlyph oneCompTT (by decide)).2
    ⟨0⟩ (by decide)).1 (by decide)

theorem overlapStep_bit9 (glyph : UFOGlyph) (i : Nat) (f : Nat) :
    (if i = 0 then
       match glyph.overlap with
       | none => f
       | some b => if b then setBit f OVERLAP_COMPOUND else clearBit f OVERLAP_COMPOUND
     else f).testBit 9 = f.testBit 9 := by
  by_cases hi : i = 0
  · simp only [hi, if_true]
    cases glyph.overlap with
    | none => rfl
    | some b =>
      cases b
      · simp [testBit_clearBit_other _ _ 10 9 OVERLAP_eq (by decide)]
      · simp [testBit_setBit_other _ _ 10 9 OVERLAP_eq (by decide)]
  · simp [if_neg hi]

theorem requestsMetrics_parts (glyph : UFOGlyph) (uc : UFOComponent)
    (hreq : requestsMetrics glyph uc = true) :
    ∃ cid clib, uc.identifier = some cid ∧ lookupComponentLib glyph cid = some clib ∧
      clib.useMyMetrics.getD false = true ∧
      (clib.roundOffsetToGrid.isSome || clib.useMyMetrics.isSome) = true := by
  obtain ⟨bg, oid⟩ := uc
  cases oid with
  | none => simp [requestsMetrics] at hreq
  | some cid =>
    cases hlib : lookupComponentLib glyph cid with
    | none => simp [requestsMetrics, hlib] at hreq
    | some clib =>
      have h3 : clib.useMyMetrics.getD false = true := by
        simpa [requestsMetrics, hlib] using hreq
      refine ⟨cid, clib, rfl, hlib, h3, ?_⟩
      cases hm : clib.useMyMetrics with
      | none => rw [hm] at h3; simp at h3
      | some b => simp [hm]

theorem processComponent_grant (glyph : UFOGlyph) (i : Nat) (c : TTComponent)
    (uc : UFOComponent) (umm : Option String)
    (hreq : requestsMetrics glyph uc = true) (humm : strTruthy umm = false) :
    (processComponent glyph i c uc umm).1.flags.testBit 9 = true ∧
    (processComponent glyph i c uc umm).2.1 = uc.identifier ∧
    (processComponent glyph i c uc umm).2.2 = [] := by
  obtain ⟨cid, clib, hid, hlib, h3, h1⟩ := requestsMetrics_parts glyph uc hreq
  by_cases h2 : clib.roundOffsetToGrid.getD true = true
  · simp [processComponent, hid, hlib, h1, h2, h3, humm, overlapStep_bit9,
      testBit_setBit_self _ _ 9 METRICS_eq]
  · simp [processComponent, hid, hlib, h1, Bool.eq_false_iff.mpr h2, h3, humm,
      overlapStep_bit9, testBit_setBit_self _ _ 9 METRICS_eq]

theorem processComponent_deny (glyph : UFOGlyph) (i : Nat) (c : TTComponent)
    (uc : UFOComponent) (u : String)
    (hreq : requestsMetrics glyph uc = true) (hu : u ≠ "") :
    (processComponent glyph i c uc (some u)).1.flags.testBit 9 = false ∧
    (processComponent glyph i c uc (some u)).2.1 = some u ∧
    ∃ cid, uc.identifier = some cid ∧
      (processComponent glyph i c uc (some u)).2.2 =
        [⟨LogLevel.warning, metricsIgnoredMsg cid u glyph.name⟩] := by
  obtain ⟨cid, clib, hid, hlib, h3, h1⟩ := requestsMetrics_parts glyph uc hreq
  have humm : strTruthy (some u) = true := by
    have : u.isEmpty = false := by
      cases hx : u.isEmpty
      · rfl
      · exact absurd ((String.isEmpty_iff u).mp hx) hu
    simp [strTruthy, this]
  by_cases h2 : clib.roundOffsetToGrid.getD true = true
  · refine ⟨?_, ?_, cid, hid, ?_⟩ <;>
      simp [processComponent, hid, hlib, h1, h2, h3, humm, overlapStep_bit9,
        testBit_clearBit_self _ _ 9 METRICS_eq]
  · refine ⟨?_, ?_, cid, hid, ?_⟩ <;>
      simp [processComponent, hid, hlib, h1, Bool.eq_false_iff.mpr h2, h3, humm,
        overlapStep_bit9, testBit_clearBit_self _ _ 9 METRICS_eq]

theorem processComponent_noreq (glyph : UFOGlyph) (i : Nat) (c : TTComponent)
    (uc : UFOComponent) (umm : Option String)
    (hreq : requestsMetrics glyph uc = false) :
    (processComponent glyph i c uc umm).1.flags.testBit 9 = c.flags.testBit 9 ∧
    (processComponent glyph i c uc umm).2.1 = umm ∧
    (processComponent glyph i c uc umm).2.2 = [] := by
  obtain ⟨bg, oid⟩ := uc
  cases oid with
  | none => simp [processComponent, overlapStep_bit9]
  | some cid =>
    cases hlib : lookupComponentLib glyph cid with
    | none => simp [processComponent, hlib, overlapStep_bit9]
    | some clib =>
      have h3 : clib.useMyMetrics.getD false = false := by
        simpa [requestsMetrics, hlib] using hreq
      by_cases h1 : (clib.roundOffsetToGrid.isSome || clib.useMyMetrics.isSome) = true
      · by_cases h2 : clib.roundOffsetToGrid.getD true = true
        · simp [processComponent, hlib, h1, h2, h3, overlapStep_bit9,
            testBit_setBit_other _ _ 2 9 ROUND_eq (by decide)]
        · simp [processComponent, hlib, h1, Bool.eq_false_iff.mpr h2, h3,
            overlapStep_bit9, testBit_clearBit_other _ _ 2 9 ROUND_eq (by decide)]
      · simp [processComponent, hlib, Bool.eq_false_iff.mpr h1, overlapStep_bit9]

theorem flagsGo_deny (glyph : UFOGlyph) (u : String) (hu : u ≠ "") :
    ∀ (ps : List (TTComponent × UFOComponent)) (i : Nat) (j : Nat)
      (pj : TTComponent × UFOComponent),
      ps[j]? = some pj → requestsMetrics glyph pj.2 = true →
      (∃ c, (flagsGo glyph i (some u) ps).1[j]? = some c ∧
         c.flags.testBit 9 = false) ∧
      (∃ cid, pj.2.identifier = some cid ∧
        (⟨LogLevel.warning, metricsIgnoredMsg cid u glyph.name⟩ : LogMsg) ∈
          (flagsGo glyph i (some u) ps).2) := by
  intro ps
  induction ps with
  | nil => intro i j pj h; cases h
  | cons p rest ih =>
    intro i j pj hj hreq
    obtain ⟨c, uc⟩ := p
    cases j with
    | zero =>
      simp only [List.getElem?_cons_zero, Option.some_inj] at hj
      subst hj
      obtain ⟨hbit, humm, cid, hid, hlog⟩ :=
        processComponent_deny glyph i c uc u hreq hu
      constructor
      · exact ⟨_, by simp [flagsGo], hbit⟩
      · refine ⟨cid, hid, ?_⟩
        simp only [flagsGo, hlog]
        exact List.mem_append_left _ (List.mem_singleton.mpr rfl)
    | succ k =>
      simp only [List.getElem?_cons_succ] at hj
      have humm : (processComponent glyph i c uc (some u)).2.1 = some u := by
        by_cases hr : requestsMetrics glyph uc = true
        · exact (processComponent_deny glyph i c uc u hr hu).2.1
        · exact (processComponent_noreq glyph i c uc (some u)
            (Bool.eq_false_iff.mpr hr)).2.1
      obtain ⟨⟨c2, hc2, hbit⟩, cid, hid, hmem⟩ := ih (i + 1) k pj hj hreq
      constructor
      · refine ⟨c2, ?_, hbit⟩
        simp only [flagsGo, List.getElem?_cons_succ, humm]
        exact hc2
      · refine ⟨cid, hid, ?_⟩
        simp only [flagsGo, humm]
        exact List.mem_append_right _ hmem

theorem flagsGo_first (glyph : UFOGlyph) :
    ∀ (ps : List (TTComponent × UFOComponent)) (i : Nat) (i0 : Nat)
      (p0 : TTComponent × UFOComponent),
      ps[i0]? = some p0 → requestsMetrics glyph p0.2 = true →
      (∀ j pj, j < i0 → ps[j]? = some pj → requestsMetrics glyph pj.2 = false) →
      ∀ cid0, p0.2.identifier = some cid0 → cid0 ≠ "" →
      (∃ c, (flagsGo glyph i none ps).1[i0]? = some c ∧
         c.flags.testBit 9 = true) ∧
      (∀ j pj, ps[j]? = some pj → requestsMetrics glyph pj.2 = true → j ≠ i0 →
        (∃ c, (flagsGo glyph i none ps).1[j]? = some c ∧
           c.flags.testBit 9 = false) ∧
        (∃ cid, pj.2.identifier = some cid ∧
          (⟨LogLevel.warning, metricsIgnoredMsg cid cid0 glyph.name⟩ : LogMsg) ∈
            (flagsGo glyph i none ps).2)) := by
  intro ps
  induction ps with
  | nil => intro i i0 p0 h; cases h
  | cons p rest ih =>
    intro i i0 p0 hp0 hreq0 hfirst cid0 hid0 hne
    obtain ⟨c, uc⟩ := p
    cases i0 with
    | zero =>
      simp only [List.getElem?_cons_zero, Option.some_inj] at hp0
      subst hp0
      obtain ⟨hbit, humm, hlog⟩ :=
        processComponent_grant glyph i c uc none hreq0 rfl
      have hid0b : uc.identifier = some cid0 := hid0
      rw [hid0b] at humm
      constructor
      · exact ⟨_, by simp [flagsGo], hbit⟩
      · intro j pj hj hreqj hj0
        cases j with
        | zero => exact absurd rfl hj0
        | succ k =>
          simp only [List.getElem?_cons_succ] at hj
          obtain ⟨⟨c2, hc2, hbit2⟩, cid, hid, hmem⟩ :=
            flagsGo_deny glyph cid0 hne rest (i + 1) k pj hj hreqj
          constructor
          · exact ⟨c2, by simp [flagsGo, humm, hc2], hbit2⟩
          · refine ⟨cid, hid, ?_⟩
            simp only [flagsGo, humm, hlog]
            exact List.mem_append_right _ hmem
    | succ k =>
      simp only [List.getElem?_cons_succ] at hp0
      have hnr : requestsMetrics glyph uc = false :=
        hfirst 0 (c, uc) (Nat.succ_pos k) (by simp)
      obtain ⟨hbit, humm, hlog⟩ :=
        processComponent_noreq glyph i c uc none hnr
      have hfirst2 : ∀ j pj, j < k → rest[j]? = some pj →
          requestsMetrics glyph pj.2 = false := by
        intro j pj hjk hjp
        exact hfirst (j + 1) pj (by omega) (by simpa using hjp)
      obtain ⟨⟨c1, hc1, hbit1⟩, hrest⟩ :=
        ih (i + 1) k p0 hp0 hreq0 hfirst2 cid0 hid0 hne
      constructor
      · refine ⟨c1, ?_, hbit1⟩
        simp only [flagsGo, List.getElem?_cons_succ, humm]
        exact hc1
      · intro j pj hj hreqj hj0
        cases j with
        | zero =>
          simp only [List.getElem?_cons_zero, Option.some_inj] at hj
          subst hj
          have : requestsMetrics glyph uc = true := hreqj
          rw [this] at hnr
          cases hnr
        | succ m =>
          simp only [List.getElem?_cons_succ] at hj
          obtain ⟨⟨c2, hc2, hbit2⟩, cid, hid, hmem⟩ :=
            hrest m pj hj hreqj (by omega)
          constructor
          · refine ⟨c2, ?_, hbit2⟩
            simp only [flagsGo, List.getElem?_cons_succ, humm]
            exact hc2
          · refine ⟨cid, hid, ?_⟩
            simp only [flagsGo, humm, hlog]
            exact List.mem_append_right _ hmem

theorem setCompositeFlags_run (glyph : UFOGlyph) (ttglyph : TTGlyph)
    (hlen : ttglyph.components.length = glyph.components.length) :
    (setCompositeFlags glyph ttglyph).1.components =
      (flagsGo glyph 0 none (ttglyph.components.zip glyph.components)).1 ∧
    (setCompositeFlags glyph ttglyph).2 =
      (flagsGo glyph 0 none (ttglyph.components.zip glyph.components)).2 := by
  unfold setCompositeFlags
  cases hp : ttglyph.program with
  | none => simp [hlen]
  | some p =>
    by_cases hb : p.isTruthy
    · simp [hb, hlen]
    · have hb2 : p.isTruthy = false := by
        cases hx : p.isTruthy
        · rfl
        · exact absurd hx hb
      simp [hb2, hlen]

/-- C4 counterexample: in the concrete composite glyph cxGlyph both
components (positions 0 and 1) request USE_MY_METRICS and the component
counts match, yet after _set_composite_flags BOTH components end with
USE_MY_METRICS set and no warning at all is logged, because the first
requesting component has the empty string as identifier, which is falsy
in Python; this refutes the claim that exactly the first requester ends
with the flag and that every later requester is cleared with a warning. -/
theorem setCompositeFlags_metrics_counterexample :
    cxGlyph.components.map (requestsMetrics cxGlyph) = [true, true] ∧
    twoCompTT.components.length = cxGlyph.components.length ∧
    ((setCompositeFlags cxGlyph twoCompTT).1.components.map
        (fun c => c.flags.testBit 9)) = [true, true] ∧
    (setCompositeFlags cxGlyph twoCompTT).2 = [] := by decide

/-- C4 (amended): for every composite glyph with matching component
counts, if two or more distinct components request USE_MY_METRICS and
the first requesting component (by position) has a non-empty identifier,
then exactly that first requester ends with USE_MY_METRICS set, every
later requesting component ends with the flag cleared, and a warning is
logged naming the ignored and the retained component identifiers.  (The
non-empty-identifier proviso is forced by the counterexample: an
empty-string identifier is falsy in the Python truthiness test guarding
the warning branch.) -/
theorem setCompositeFlags_metrics_exclusive (glyph : UFOGlyph) (ttglyph : TTGlyph)
    (hlen : ttglyph.components.length = glyph.components.length)
    (i0 : Nat) (p0 : TTComponent × UFOComponent)
    (hp0 : (ttglyph.components.zip glyph.components)[i0]? = some p0)
    (hreq0 : requestsMetrics glyph p0.2 = true)
    (hfirst : ∀ j pj, j < i0 →
       (ttglyph.components.zip glyph.components)[j]? = some pj →
       requestsMetrics glyph pj.2 = false)
    (cid0 : String) (hid0 : p0.2.identifier = some cid0) (hne : cid0 ≠ "") :
    (∃ c, (setCompositeFlags glyph ttglyph).1.components[i0]? = some c ∧
       c.flags.testBit 9 = true) ∧
    (∀ j pj, (ttglyph.components.zip glyph.components)[j]? = some pj →
       requestsMetrics glyph pj.2 = true → j ≠ i0 →
       (∃ c, (setCompositeFlags glyph ttglyph).1.components[j]? = some c ∧
          c.flags.testBit 9 = false) ∧
       (∃ cid, pj.2.identifier = some cid ∧
          (⟨LogLevel.warning, metricsIgnoredMsg cid cid0 glyph.name⟩ : LogMsg) ∈
            (setCompositeFlags glyph ttglyph).2)) := by
  obtain ⟨hc, hl⟩ := setCompositeFlags_run glyph ttglyph hlen
  rw [hc, hl]
  exact flagsGo_first glyph (ttglyph.components.zip glyph.components) 0 i0 p0
    hp0 hreq0 hfirst cid0 hid0 hne

/-- Witness for the amended C4 at a concrete composite with requesting
identifiers A and B: the first is granted, the second is cleared and the
warning names both. -/
theorem setCompositeFlags_metrics_exclusive_witness :
    (∃ c, (setCompositeFlags wGlyph twoCompTT).1.components[0]? = some c ∧
       c.flags.testBit 9 = true) ∧
    (∃ c, (setCompositeFlags wGlyph twoCompTT).1.components[1]? = some c ∧
       c.flags.testBit 9 = false) ∧
    (∃ cid, (⟨"b2", some "B"⟩ : UFOComponent).identifier = some cid ∧
       (⟨LogLevel.warning, metricsIgnoredMsg cid "A" wGlyph.name⟩ : LogMsg) ∈
         (setCompositeFlags wGlyph twoCompTT).2) := by
  have h := setCompositeFlags_metrics_exclusive wGlyph twoCompTT (by decide)
    0 (⟨0⟩, ⟨"b1", some "A"⟩) (by decide) (by decide)
    (by intro j pj hj hp; omega) "A" (by decide) (by decide)
  have h2 := h.2 1 (⟨0⟩, ⟨"b2", some "B"⟩) (by decide) (by decide) (by decide)
  exact ⟨h.1, h2.1, h2.2⟩

theorem lookupTT_cons_pos (e : String × TTGlyph) (rest : List (String × TTGlyph))
    (n : String) (h : (e.1 == n) = true) : lookupTT (e :: rest) n = some e.2 := by
  simp [lookupTT, List.find?_cons, h]

theorem lookupTT_cons_neg (e : String × TTGlyph) (rest : List (String × TTGlyph))
    (n : String) (h : (e.1 == n) = false) :
    lookupTT (e :: rest) n = lookupTT rest n := by
  simp [lookupTT, List.find?_cons, h]

theorem updateTT_cons (e : String × TTGlyph) (rest : List (String × TTGlyph))
    (n : String) (g : TTGlyph) :
    updateTT (e :: rest) n g =
      (if e.1 == n then (e.1, g) else e) :: updateTT rest n g := rfl

theorem lookupTT_updateTT_self (glyf : List (String × TTGlyph)) (n : String)
    (g : TTGlyph) (h : (lookupTT glyf n).isSome) :
    lookupTT (updateTT glyf n g) n = some g := by
  induction glyf with
  | nil => simp [lookupTT] at h
  | cons e rest ih =>
    cases he : e.1 == n with
    | true =>
      rw [updateTT_cons, if_pos he, lookupTT_cons_pos ((e.1, g)) _ n he]
    | false =>
      rw [updateTT_cons, if_neg (by simp [he]), lookupTT_cons_neg e _ n he]
      rw [lookupTT_cons_neg e rest n he] at h
      exact ih h

theorem lookupTT_updateTT_ne (glyf : List (String × TTGlyph)) (n m : String)
    (g : TTGlyph) (h : m ≠ n) :
    lookupTT (updateTT glyf n g) m = lookupTT glyf m := by
  induction glyf with
  | nil => rfl
  | cons e rest ih =>
    cases he : e.1 == n with
    | true =>
      have hen : e.1 = n := by simpa using he
      have hem : (e.1 == m) = false := by
        rw [hen]
        simp
        exact fun hx => h hx.symm
      rw [updateTT_cons, if_pos he, lookupTT_cons_neg ((e.1, g)) _ m hem,
        lookupTT_cons_neg e rest m hem]
      exact ih
    | false =>
      cases hm : e.1 == m with
      | true =>
        rw [updateTT_cons, if_neg (by simp [he]), lookupTT_cons_pos e _ m hm,
          lookupTT_cons_pos e rest m hm]
      | false =>
        rw [updateTT_cons, if_neg (by simp [he]), lookupTT_cons_neg e _ m hm,
          lookupTT_cons_neg e rest m hm]
        exact ih

theorem insertStr_perm (s : String) (l : List String) :
    (insertStr s l).Perm (s :: l) := by
  induction l with
  | nil => exact List.Perm.refl _
  | cons t ts ih =>
    by_cases h : strLt t s = true
    · rw [show insertStr s (t :: ts) = t :: insertStr s ts from by
        simp [insertStr, h]]
      exact (List.Perm.cons t ih).trans (List.Perm.swap s t ts)
    · rw [show insertStr s (t :: ts) = s :: t :: ts from by
        simp [insertStr, Bool.eq_false_iff.mpr h]]

theorem sortStrs_perm (l : List String) : (sortStrs l).Perm l := by
  induction l with
  | nil => exact List.Perm.refl _
  | cons a t ih =>
    have h1 : sortStrs (a :: t) = insertStr a (sortStrs t) := rfl
    rw [h1]
    exact (insertStr_perm a (sortStrs t)).trans (List.Perm.cons a ih)

theorem mem_sortedNames (ufo : UFOFont) (g : UFOGlyph) (hg : g ∈ ufo.glyphs) :
    g.name ∈ sortedNames ufo := by
  unfold sortedNames
  exact (sortStrs_perm _).mem_iff.mpr (List.mem_map_of_mem _ hg)

theorem nodup_sortedNames (ufo : UFOFont)
    (h : (ufo.glyphs.map (fun g => g.name)).Nodup) :
    (sortedNames ufo).Nodup := by
  unfold sortedNames
  exact (List.Perm.nodup_iff (sortStrs_perm _)).mpr h

theorem find_name_eq_of_mem (gs : List UFOGlyph) (g : UFOGlyph)
    (hnd : (gs.map (fun x => x.name)).Nodup) (hg : g ∈ gs) :
    gs.find? (fun x => x.name == g.name) = some g := by
  induction gs with
  | nil => cases hg
  | cons h0 rest ih =>
    simp only [List.map_cons, List.nodup_cons] at hnd
    rcases List.mem_cons.mp hg with h1 | hmem
    · subst h1
      simp [List.find?_cons]
    · have hne : (h0.name == g.name) = false := by
        cases hx : h0.name == g.name
        · rfl
        · exfalso
          apply hnd.1
          rw [show h0.name = g.name from by simpa using hx]
          exact List.mem_map_of_mem _ hmem
      simp only [List.find?_cons, hne]
      exact ih hnd.2 hmem

theorem findGlyph_eq_of_mem (ufo : UFOFont) (g : UFOGlyph)
    (hnd : (ufo.glyphs.map (fun x => x.name)).Nodup) (hg : g ∈ ufo.glyphs) :
    findGlyph ufo g.name = some g :=
  find_name_eq_of_mem ufo.glyphs g hnd hg

theorem compileTTGlyphProgram_err (glyph : UFOGlyph) (tt : TTGlyph)
    (td : GlyphTTData) :
    (compileTTGlyphProgram glyph tt td).2.2 = checkTTDataFormat td := by
  unfold compileTTGlyphProgram
  cases checkTTDataFormat td with
  | some e => rfl
  | none =>
    rcases hh : checkGlyphHash glyph td with ⟨b, logs⟩
    cases b
    · rfl
    · cases td.assembly <;> rfl

theorem checkTTDataFormat_fmt1 (td : GlyphTTData) (h : td.formatVersion = some 1) :
    checkTTDataFormat td = none := by
  simp [checkTTDataFormat, h]

/-- The per-name condition under which processing one glyph name cannot
raise. -/
def okCond (ufo : UFOFont) (n : String) : Prop :=
  ∀ glyph, findGlyph ufo n = some glyph →
    ∀ td, glyph.ttdata = some td → td.formatVersion = some 1

theorem compileTTGlyph_ok (ufo : UFOFont) (glyf : List (String × TTGlyph))
    (n : String) (h : okCond ufo n) :
    (compileTTGlyph ufo glyf n).2.2 = none := by
  cases hf : findGlyph ufo n with
  | none => simp [compileTTGlyph, hf]
  | some glyph =>
    cases ht : lookupTT glyf n with
    | none => simp [compileTTGlyph, hf, ht]
    | some ttglyph =>
      cases htd : glyph.ttdata with
      | none => simp [compileTTGlyph, hf, ht, htd]
      | some td =>
        have hfmt : td.formatVersion = some 1 := h glyph hf td htd
        have herr : (compileTTGlyphProgram glyph ttglyph td).2.2 = none := by
          rw [compileTTGlyphProgram_err, checkTTDataFormat_fmt1 td hfmt]
        simp [compileTTGlyph, hf, ht, htd, herr]

theorem compileTTGlyph_preserve (ufo : UFOFont) (glyf : List (String × TTGlyph))
    (n m : String) (h : m ≠ n) :
    lookupTT (compileTTGlyph ufo glyf n).1 m = lookupTT glyf m := by
  cases hf : findGlyph ufo n with
  | none => simp [compileTTGlyph, hf]
  | some glyph =>
    cases ht : lookupTT glyf n with
    | none => simp [compileTTGlyph, hf, ht]
    | some ttglyph =>
      cases htd : glyph.ttdata with
      | none =>
        simp only [compileTTGlyph, hf, ht, htd]
        exact lookupTT_updateTT_ne glyf n m _ h
      | some td =>
        cases hs : (compileTTGlyphProgram glyph ttglyph td).2.2 with
        | some e => simp [compileTTGlyph, hf, ht, htd, hs]
        | none =>
          simp only [compileTTGlyph, hf, ht, htd, hs]
          exact lookupTT_updateTT_ne glyf n m _ h

theorem compileGlyfGo_logs_prefix (ufo : UFOFont) :
    ∀ (names : List String) (glyf : List (String × TTGlyph)) (logs : List LogMsg),
      ∃ tail, (compileGlyfGo ufo names glyf logs).2.1 = logs ++ tail := by
  intro names
  induction names with
  | nil => intro glyf logs; exact ⟨[], by simp [compileGlyfGo]⟩
  | cons n rest ih =>
    intro glyf logs
    simp only [compileGlyfGo]
    cases he : (compileTTGlyph ufo glyf n).2.2 with
    | some e => exact ⟨(compileTTGlyph ufo glyf n).2.1, rfl⟩
    | none =>
      obtain ⟨tail, htail⟩ := ih (compileTTGlyph ufo glyf n).1
        (logs ++ (compileTTGlyph ufo glyf n).2.1)
      exact ⟨(compileTTGlyph ufo glyf n).2.1 ++ tail, by rw [htail, List.append_assoc]⟩

theorem compileGlyfGo_preserve (ufo : UFOFont) :
    ∀ (names : List String) (glyf : List (String × TTGlyph)) (logs : List LogMsg)
      (m : String), m ∉ names → (∀ n ∈ names, okCond ufo n) →
      lookupTT (compileGlyfGo ufo names glyf logs).1 m = lookupTT glyf m ∧
      (compileGlyfGo ufo names glyf logs).2.2 = none := by
  intro names
  induction names with
  | nil => intro glyf logs m hm hok; exact ⟨rfl, rfl⟩
  | cons n rest ih =>
    intro glyf logs m hm hok
    have hne : (compileTTGlyph ufo glyf n).2.2 = none :=
      compileTTGlyph_ok ufo glyf n (hok n (List.mem_cons_self n rest))
    simp only [compileGlyfGo, hne]
    have hmn : m ≠ n := fun h => hm (h ▸ List.mem_cons_self n rest)
    have hmr : m ∉ rest := fun h => hm (List.mem_cons_of_mem n h)
    obtain ⟨h1, h2⟩ := ih (compileTTGlyph ufo glyf n).1
      (logs ++ (compileTTGlyph ufo glyf n).2.1) m hmr
      (fun x hx => hok x (List.mem_cons_of_mem n hx))
    exact ⟨h1.trans (compileTTGlyph_preserve ufo glyf n m hmn), h2⟩

theorem setCompositeFlags_program_none (glyph : UFOGlyph) (tt : TTGlyph)
    (h : tt.program = none) : (setCompositeFlags glyph tt).1.program = none := by
  unfold setCompositeFlags
  simp only [h]
  by_cases hc : tt.components.length ≠ glyph.components.length
  · simp [hc, h]
  · simp [hc, h]

theorem findGlyph_mem (ufo : UFOFont) (n : String) (glyph : UFOGlyph)
    (h : findGlyph ufo n = some glyph) : glyph ∈ ufo.glyphs :=
  List.mem_of_find?_eq_some h

theorem compileTTGlyph_hashfail (ufo : UFOFont) (glyf : List (String × TTGlyph))
    (g : UFOGlyph) (td : GlyphTTData) (tt0 : TTGlyph)
    (hfind : findGlyph ufo g.name = some g)
    (htd : g.ttdata = some td)
    (hfmt : td.formatVersion = some 1)
    (hbad : td.id ≠ some (hashPointPen g))
    (htt : lookupTT glyf g.name = some tt0)
    (hp0 : tt0.program = none) :
    (compileTTGlyph ufo glyf g.name).2.2 = none ∧
    (∃ tt1, lookupTT (compileTTGlyph ufo glyf g.name).1 g.name = some tt1 ∧
       tt1.program = none) ∧
    (∃ l ∈ (compileTTGlyph ufo glyf g.name).2.1, l.level = LogLevel.error ∧
       (l.msg = hashMissingMsg g.name ∨ l.msg = hashMismatchMsg g.name)) := by
  have hchk := checkTTDataFormat_fmt1 td hfmt
  have hmain : ∃ msg, (msg = hashMissingMsg g.name ∨ msg = hashMismatchMsg g.name) ∧
      compileTTGlyphProgram g tt0 td = (tt0, [⟨LogLevel.error, msg⟩], none) := by
    cases hid : td.id with
    | none =>
      refine ⟨hashMissingMsg g.name, Or.inl rfl, ?_⟩
      simp [compileTTGlyphProgram, hchk, checkGlyphHash, hid]
    | some gid =>
      have hne : gid ≠ hashPointPen g := by
        intro hh
        exact hbad (by rw [hid, hh])
      refine ⟨hashMismatchMsg g.name, Or.inr rfl, ?_⟩
      simp [compileTTGlyphProgram, hchk, checkGlyphHash, hid, hne]
  obtain ⟨msg, hmsg, hXX⟩ := hmain
  have hsome : (lookupTT glyf g.name).isSome := by rw [htt]; rfl
  by_cases hco : tt0.isComposite = true
  · have hres : compileTTGlyph ufo glyf g.name =
        (updateTT glyf g.name (setCompositeFlags g tt0).1,
         ⟨LogLevel.error, msg⟩ :: (setCompositeFlags g tt0).2, none) := by
      simp [compileTTGlyph, hfind, htt, htd, hXX, hco]
    rw [hres]
    refine ⟨rfl, ⟨(setCompositeFlags g tt0).1, ?_,
      setCompositeFlags_program_none g tt0 hp0⟩,
      ⟨⟨LogLevel.error, msg⟩, List.mem_cons_self _ _, rfl, hmsg⟩⟩
    exact lookupTT_updateTT_self glyf g.name _ hsome
  · have hco2 : tt0.isComposite = false := by
      cases hx : tt0.isComposite
      · rfl
      · exact absurd hx hco
    have hres : compileTTGlyph ufo glyf g.name =
        (updateTT glyf g.name tt0, [⟨LogLevel.error, msg⟩], none) := by
      simp [compileTTGlyph, hfind, htt, htd, hXX, hco2]
    rw [hres]
    refine ⟨rfl, ⟨tt0, ?_, hp0⟩,
      ⟨⟨LogLevel.error, msg⟩, List.mem_cons_self _ _, rfl, hmsg⟩⟩
    exact lookupTT_updateTT_self glyf g.name _ hsome

theorem compileGlyfGo_hashfail (ufo : UFOFont) (g : UFOGlyph) (td : GlyphTTData)
    (hfind : findGlyph ufo g.name = some g)
    (htd : g.ttdata = some td)
    (hfmt : td.formatVersion = some 1)
    (hbad : td.id ≠ some (hashPointPen g))
    (hok : ∀ n, okCond ufo n) :
    ∀ (names : List String) (glyf : List (String × TTGlyph)) (logs : List LogMsg)
      (tt0 : TTGlyph), names.Nodup → g.name ∈ names →
      lookupTT glyf g.name = some tt0 → tt0.program = none →
      (compileGlyfGo ufo names glyf logs).2.2 = none ∧
      (∃ tt1, lookupTT (compileGlyfGo ufo names glyf logs).1 g.name = some tt1 ∧
         tt1.program = none) ∧
      (∃ l ∈ (compileGlyfGo ufo names glyf logs).2.1, l.level = LogLevel.error ∧
         (l.msg = hashMissingMsg g.name ∨ l.msg = hashMismatchMsg g.name)) := by
  intro names
  induction names with
  | nil => intro glyf logs tt0 hnd hmem; cases hmem
  | cons n rest ih =>
    intro glyf logs tt0 hnd hmem htt hp0
    by_cases hn : n = g.name
    · subst hn
      obtain ⟨herr0, ⟨tt1, htt1, hp1⟩, ⟨l, hl, hlv, hlm⟩⟩ :=
        compileTTGlyph_hashfail ufo glyf g td tt0 hfind htd hfmt hbad htt hp0
      have hnotin : g.name ∉ rest := (List.nodup_cons.mp hnd).1
      obtain ⟨hpres, herr⟩ := compileGlyfGo_preserve ufo rest
        (compileTTGlyph ufo glyf g.name).1
        (logs ++ (compileTTGlyph ufo glyf g.name).2.1) g.name hnotin
        (fun x _ => hok x)
      obtain ⟨tail, htail⟩ := compileGlyfGo_logs_prefix ufo rest
        (compileTTGlyph ufo glyf g.name).1
        (logs ++ (compileTTGlyph ufo glyf g.name).2.1)
      simp only [compileGlyfGo, herr0]
      refine ⟨herr, ⟨tt1, hpres.trans htt1, hp1⟩, ⟨l, ?_, hlv, hlm⟩⟩
      rw [htail]
      exact List.mem_append_left _ (List.mem_append_right _ hl)
    · have herr0 : (compileTTGlyph ufo glyf n).2.2 = none :=
        compileTTGlyph_ok ufo glyf n (hok n)
      simp only [compileGlyfGo, herr0]
      have hmem2 : g.name ∈ rest := by
        rcases List.mem_cons.mp hmem with h1 | h1
        · exact absurd h1.symm hn
        · exact h1
      have htt2 : lookupTT (compileTTGlyph ufo glyf n).1 g.name = some tt0 :=
        (compileTTGlyph_preserve ufo glyf n g.name
          (fun h => hn h.symm)).trans htt
      exact ih (compileTTGlyph ufo glyf n).1
        (logs ++ (compileTTGlyph ufo glyf n).2.1) tt0
        (List.nodup_cons.mp hnd).2 hmem2 htt2 hp0

/-- C1: for every glyph carrying instruction metadata whose stored
content-hash id is missing or differs from a freshly computed hash of the
current point data and advance width (and whose format version is the
supported one, so that no fatal error interferes), compile_glyf attaches
no program to that glyph, logs an error, and continues with the remaining
glyphs without raising. -/
theorem compile_glyf_hash_mismatch (ufo : UFOFont) (font : TTFont)
    (g : UFOGlyph) (td : GlyphTTData) (tt0 : TTGlyph)
    (hnd : (ufo.glyphs.map (fun x => x.name)).Nodup)
    (hg : g ∈ ufo.glyphs)
    (htd : g.ttdata = some td)
    (hfmtall : ∀ g2 ∈ ufo.glyphs, ∀ td2, g2.ttdata = some td2 →
       td2.formatVersion = some 1)
    (hbad : td.id ≠ some (hashPointPen g))
    (htt : lookupTT font.glyf g.name = some tt0)
    (hp0 : tt0.program = none) :
    (compile_glyf ufo font).2.2 = none ∧
    (∃ tt1, lookupTT (compile_glyf ufo font).1.glyf g.name = some tt1 ∧
       tt1.program = none) ∧
    (∃ l ∈ (compile_glyf ufo font).2.1, l.level = LogLevel.error ∧
       (l.msg = hashMissingMsg g.name ∨ l.msg = hashMismatchMsg g.name)) := by
  have hfind := findGlyph_eq_of_mem ufo g hnd hg
  have hfmt := hfmtall g hg td htd
  have hok : ∀ n, okCond ufo n := by
    intro n glyph hfg td2 htd2
    exact hfmtall glyph (findGlyph_mem ufo n glyph hfg) td2 htd2
  have h := compileGlyfGo_hashfail ufo g td hfind htd hfmt hbad hok
    (sortedNames ufo) font.glyf [] tt0 (nodup_sortedNames ufo hnd)
    (mem_sortedNames ufo g hg) htt hp0
  exact h

/-- Witness for C1 at a concrete UFO whose single glyph stores the hash
id nope, which differs from the computed hash. -/
theorem compile_glyf_hash_mismatch_witness :
    (compile_glyf hashUFO hashFont).2.2 = none ∧
    (∃ tt1, lookupTT (compile_glyf hashUFO hashFont).1.glyf hashGlyph.name =
       some tt1 ∧ tt1.program = none) ∧
    (∃ l ∈ (compile_glyf hashUFO hashFont).2.1, l.level = LogLevel.error ∧
       (l.msg = hashMissingMsg hashGlyph.name ∨
        l.msg = hashMismatchMsg hashGlyph.name)) :=
  compile_glyf_hash_mismatch hashUFO hashFont hashGlyph
    ⟨some 1, some "nope", some "PUSH"⟩ ⟨none, []⟩
    (by decide) (by decide) (by decide)
    (by decide) (by decide) (by decide) (by decide)

theorem compileTTGlyph_fmtfail (ufo : UFOFont) (glyf : List (String × TTGlyph))
    (g : UFOGlyph) (td : GlyphTTData) (e0 : PyErr) (tt0 : TTGlyph)
    (hfind : findGlyph ufo g.name = some g)
    (htd : g.ttdata = some td)
    (hchk : checkTTDataFormat td = some e0)
    (htt : lookupTT glyf g.name = some tt0) :
    compileTTGlyph ufo glyf g.name = (glyf, [], some e0) := by
  have hstep : compileTTGlyphProgram g tt0 td = (tt0, [], some e0) := by
    simp [compileTTGlyphProgram, hchk]
  simp [compileTTGlyph, hfind, htt, htd, hstep]

theorem compileGlyfGo_fmtfail (ufo : UFOFont) (g : UFOGlyph) (td : GlyphTTData)
    (e0 : PyErr)
    (hfind : findGlyph ufo g.name = some g)
    (htd : g.ttdata = some td)
    (hchk : checkTTDataFormat td = some e0)
    (hok : ∀ n, n ≠ g.name → okCond ufo n) :
    ∀ (names : List String) (glyf : List (String × TTGlyph)) (logs : List LogMsg)
      (tt0 : TTGlyph), names.Nodup → g.name ∈ names →
      lookupTT glyf g.name = some tt0 →
      (compileGlyfGo ufo names glyf logs).2.2 = some e0 ∧
      lookupTT (compileGlyfGo ufo names glyf logs).1 g.name = some tt0 := by
  intro names
  induction names with
  | nil => intro glyf logs tt0 hnd hmem; cases hmem
  | cons n rest ih =>
    intro glyf logs tt0 hnd hmem htt
    by_cases hn : n = g.name
    · subst hn
      have hres := compileTTGlyph_fmtfail ufo glyf g td e0 tt0 hfind htd hchk htt
      have hgo : compileGlyfGo ufo (g.name :: rest) glyf logs =
          (glyf, logs ++ [], some e0) := by
        simp only [compileGlyfGo, hres]
      rw [hgo]
      exact ⟨rfl, htt⟩
    · have herr0 : (compileTTGlyph ufo glyf n).2.2 = none :=
        compileTTGlyph_ok ufo glyf n (hok n hn)
      simp only [compileGlyfGo, herr0]
      have hmem2 : g.name ∈ rest := by
        rcases List.mem_cons.mp hmem with h1 | h1
        · exact absurd h1.symm hn
        · exact h1
      have htt2 : lookupTT (compileTTGlyph ufo glyf n).1 g.name = some tt0 :=
        (compileTTGlyph_preserve ufo glyf n g.name
          (fun h => hn h.symm)).trans htt
      exact ih (compileTTGlyph ufo glyf n).1
        (logs ++ (compileTTGlyph ufo glyf n).2.1) tt0
        (List.nodup_cons.mp hnd).2 hmem2 htt2

theorem compileProgram_fmtbad (ufo : UFOFont) (font : TTFont) (key : ProgKey)
    (td : FontTTData) (v : Int)
    (h : ufo.lib = some td) (hv : td.formatVersion = some v) (hne : v ≠ 1) :
    compileProgram ufo font key =
      (font, some (PyErr.notImplementedError ("Unknown formatVersion " ++
        toString v ++ " for instructions in lib key."))) := by
  have htr : td.isTruthy = true := by simp [FontTTData.isTruthy, hv]
  simp [compileProgram, h, htr, hv, hne]

/-- C2: a present instruction-metadata block whose formatVersion value is
not 1 makes the corresponding compile operation raise a
NotImplementedError before any write: compile_fpgm and compile_prep
return the font unchanged together with the error, and compile_glyf stops
with the error leaving the glyf entry of the offending glyph exactly as
it was (no program attached). -/
theorem format_version_fatal :
    (∀ (ufo : UFOFont) (font : TTFont) (td : FontTTData) (v : Int),
       ufo.lib = some td → td.formatVersion = some v → v ≠ 1 →
       (∃ m, compile_fpgm ufo font = (font, some (PyErr.notImplementedError m))) ∧
       (∃ m, compile_prep ufo font = (font, some (PyErr.notImplementedError m)))) ∧
    (∀ (ufo : UFOFont) (font : TTFont) (g : UFOGlyph) (td : GlyphTTData)
       (v : Int) (tt0 : TTGlyph),
       (ufo.glyphs.map (fun x => x.name)).Nodup → g ∈ ufo.glyphs →
       g.ttdata = some td → td.formatVersion = some v → v ≠ 1 →
       (∀ g2 ∈ ufo.glyphs, g2.name ≠ g.name → ∀ td2, g2.ttdata = some td2 →
          td2.formatVersion = some 1) →
       lookupTT font.glyf g.name = some tt0 →
       (∃ m, (compile_glyf ufo font).2.2 = some (PyErr.notImplementedError m)) ∧
       lookupTT (compile_glyf ufo font).1.glyf g.name = some tt0) := by
  constructor
  · intro ufo font td v h hv hne
    exact ⟨⟨_, compileProgram_fmtbad ufo font ProgKey.fontProgram td v h hv hne⟩,
      ⟨_, compileProgram_fmtbad ufo font ProgKey.controlValueProgram td v h hv hne⟩⟩
  · intro ufo font g td v tt0 hnd hg htd hv hne hother htt
    have hfind := findGlyph_eq_of_mem ufo g hnd hg
    have hchk : checkTTDataFormat td = some (PyErr.notImplementedError
        ("Unknown formatVersion " ++ toString v ++
         " for instructions in glyph.")) := by
      simp [checkTTDataFormat, hv, hne]
    have hok : ∀ n, n ≠ g.name → okCond ufo n := by
      intro n hn glyph hfg td2 htd2
      have hmem := findGlyph_mem ufo n glyph hfg
      have hname : glyph.name = n := by
        have := List.find?_some hfg
        simpa using this
      exact hother glyph hmem (by rw [hname]; exact hn) td2 htd2
    have h := compileGlyfGo_fmtfail ufo g td _ hfind htd hchk hok
      (sortedNames ufo) font.glyf [] tt0 (nodup_sortedNames ufo hnd)
      (mem_sortedNames ufo g hg) htt
    exact ⟨⟨_, h.1⟩, h.2⟩

/-- Witness for C2 at concrete inputs with formatVersion 2 at the font
level and at the glyph level. -/
theorem format_version_fatal_witness :
    (∃ m, compile_fpgm fmt2UFO qFont = (qFont, some (PyErr.notImplementedError m))) ∧
    (∃ m, (compile_glyf fmt2GlyphUFO qFont).2.2 =
       some (PyErr.notImplementedError m)) ∧
    lookupTT (compile_glyf fmt2GlyphUFO qFont).1.glyf fmt2Glyph.name =
      some ⟨none, []⟩ := by
  have h1 := format_version_fatal.1 fmt2UFO qFont
    ⟨some 2, some "F", some "C", none, none, none, none, none, none, none⟩ 2
    rfl rfl (by decide)
  have h2 := format_version_fatal.2 fmt2GlyphUFO qFont fmt2Glyph
    ⟨some 2, some "id", some "A"⟩ 2 ⟨none, []⟩
    (by decide) (by decide) (by decide) (by decide) (by decide)
    (by
      intro g2 hg2 hne td2 htd2
      have hq : g2 = fmt2Glyph := by simpa [fmt2GlyphUFO] using hg2
      exact absurd (congrArg UFOGlyph.name hq) hne)
    (by decide)
  exact ⟨h1.1, h2.1, h2.2⟩

theorem compileProgram_emptyDict (ufo : UFOFont) (font : TTFont) (key : ProgKey)
    (h : ufo.lib = some FontTTData.emptyDict) :
    compileProgram ufo font key = (font, none) := by
  have htr : FontTTData.emptyDict.isTruthy = false := by decide
  simp [compileProgram, h, htr]

/-- C10: a present glyph-level instruction block with no formatVersion
key (an empty block included) makes compile_glyf raise the TypeError from
int(None) rather than the typed NotImplementedError, while at the font
level an empty instruction block is treated as absent: compile_fpgm and
compile_prep perform no format check and return the font unchanged
without raising. -/
theorem missing_formatVersion_behavior :
    (∀ (ufo : UFOFont) (font : TTFont) (g : UFOGlyph) (td : GlyphTTData)
       (tt0 : TTGlyph),
       (ufo.glyphs.map (fun x => x.name)).Nodup → g ∈ ufo.glyphs →
       g.ttdata = some td → td.formatVersion = none →
       (∀ g2 ∈ ufo.glyphs, g2.name ≠ g.name → ∀ td2, g2.ttdata = some td2 →
          td2.formatVersion = some 1) →
       lookupTT font.glyf g.name = some tt0 →
       ∃ m, (compile_glyf ufo font).2.2 = some (PyErr.typeError m)) ∧
    (∀ (ufo : UFOFont) (font : TTFont),
       ufo.lib = some FontTTData.emptyDict →
       compile_fpgm ufo font = (font, none) ∧
       compile_prep ufo font = (font, none)) := by
  constructor
  · intro ufo font g td tt0 hnd hg htd hv hother htt
    have hfind := findGlyph_eq_of_mem ufo g hnd hg
    have hchk : checkTTDataFormat td =
        some (PyErr.typeError ("int() argument cannot be None")) := by
      simp [checkTTDataFormat, hv]
    have hok : ∀ n, n ≠ g.name → okCond ufo n := by
      intro n hn glyph hfg td2 htd2
      have hmem := findGlyph_mem ufo n glyph hfg
      have hname : glyph.name = n := by
        have := List.find?_some hfg
        simpa using this
      exact hother glyph hmem (by rw [hname]; exact hn) td2 htd2
    have h := compileGlyfGo_fmtfail ufo g td _ hfind htd hchk hok
      (sortedNames ufo) font.glyf [] tt0 (nodup_sortedNames ufo hnd)
      (mem_sortedNames ufo g hg) htt
    exact ⟨_, h.1⟩
  · intro ufo font h
    exact ⟨compileProgram_emptyDict ufo font ProgKey.fontProgram h,
      compileProgram_emptyDict ufo font ProgKey.controlValueProgram h⟩

/-- Witness for C10 at concrete inputs: a glyph block without
formatVersion raises TypeError, and an empty font-level block is inert. -/
theorem missing_formatVersion_behavior_witness :
    (∃ m, (compile_glyf noFmtUFO qFont).2.2 = some (PyErr.typeError m)) ∧
    compile_fpgm emptyLibUFO qFont = (qFont, none) := by
  have h1 := missing_formatVersion_behavior.1 noFmtUFO qFont noFmtGlyph
    ⟨none, none, none⟩ ⟨none, []⟩
    (by decide) (by decide) (by decide) (by decide)
    (by
      intro g2 hg2 hne td2 htd2
      have hq : g2 = noFmtGlyph := by simpa [noFmtUFO] using hg2
      exact absurd (congrArg UFOGlyph.name hq) hne)
    (by decide)
  have h2 := missing_formatVersion_behavior.2 emptyLibUFO qFont rfl
  exact ⟨h1, h2.1⟩

end InstrComp

namespace Anchors

/-- C5: for the glyph set with base a carrying top (175,300) and bottom
(175,0), the combining marks carrying an attachment anchor at (0,300) and
a top anchor at (0,480), amacron built from a and macroncomb at offset
(175,0), and amacrondieresis built from amacron (identity) and
dieresiscomb at offset (175,180): after anchor propagation,
amacrondieresis has anchor top equal to (175,660) and anchor bottom equal
to (175,0). -/
theorem nested_stacking_anchors :
    (findAnchorXY
      (anchorsOf (propagateAnchorsFilter (some ["amacrondieresis"]) nestedFont).1
        ("amacrondieresis")) ("top") = some (175, 660)) ∧
    (findAnchorXY
      (anchorsOf (propagateAnchorsFilter (some ["amacrondieresis"]) nestedFont).1
        ("amacrondieresis")) ("bottom") = some (175, 0)) := by decide

theorem propagateComps_nil (f : Nat) (v : List String) (st : PropState) :
    propagateComps f v [] st = st := rfl

theorem propagateComps_cons (f : Nat) (v : List String) (c : Component)
    (cs : List Component) (st : PropState) :
    propagateComps f v (c :: cs) st =
      propagateComps f v cs (propagate f v c.baseGlyph st) := rfl

theorem propagate_zero (v : List String) (n : String) (st : PropState) :
    propagate 0 v n st = st := rfl

theorem propagate_succ_skip (f : Nat) (v : List String) (n : String)
    (st : PropState) (h1 : (st.done.contains n || v.contains n) = true) :
    propagate (Nat.succ f) v n st = st := by
  unfold propagate
  rw [if_pos h1]

theorem propagate_succ_nolookup (f : Nat) (v : List String) (n : String)
    (st : PropState) (h1 : (st.done.contains n || v.contains n) = false)
    (hg : lookupGlyph st.glyphs n = none) :
    propagate (Nat.succ f) v n st = ⟨st.glyphs, n :: st.done⟩ := by
  unfold propagate
  rw [if_neg (by rw [h1]; simp), hg]

theorem propagate_succ_empty (f : Nat) (v : List String) (n : String)
    (st : PropState) (g : Glyph)
    (h1 : (st.done.contains n || v.contains n) = false)
    (hg : lookupGlyph st.glyphs n = some g)
    (hce : g.components.isEmpty = true) :
    propagate (Nat.succ f) v n st = ⟨st.glyphs, n :: st.done⟩ := by
  unfold propagate
  rw [if_neg (by rw [h1]; simp), hg]
  dsimp only
  rw [if_pos hce]

theorem propagate_succ_main_none (f : Nat) (v : List String) (n : String)
    (st : PropState) (g : Glyph)
    (h1 : (st.done.contains n || v.contains n) = false)
    (hg : lookupGlyph st.glyphs n = some g)
    (hce : g.components.isEmpty = false)
    (hg1 : lookupGlyph (propagateComps f (n :: v) g.components st).glyphs n = none) :
    propagate (Nat.succ f) v n st =
      ⟨(propagateComps f (n :: v) g.components st).glyphs,
       n :: (propagateComps f (n :: v) g.components st).done⟩ := by
  unfold propagate
  rw [if_neg (by rw [h1]; simp), hg]
  dsimp only
  rw [if_neg (by rw [hce]; simp)]
  have hq : (propagateComps f (n :: v) g.components st) =
      g.components.foldl (fun s c => propagate f (n :: v) c.baseGlyph s) st := rfl
  rw [← hq, hg1]

theorem propagate_succ_main_some (f : Nat) (v : List String) (n : String)
    (st : PropState) (g g1 : Glyph)
    (h1 : (st.done.contains n || v.contains n) = false)
    (hg : lookupGlyph st.glyphs n = some g)
    (hce : g.components.isEmpty = false)
    (hg1 : lookupGlyph (propagateComps f (n :: v) g.components st).glyphs n =
       some g1) :
    propagate (Nat.succ f) v n st =
      ⟨appendAnchors (propagateComps f (n :: v) g.components st).glyphs n
         (sortToAdd (toAddFor (propagateComps f (n :: v) g.components st).glyphs
           (propagateComps f (n :: v) g.components st).done g1)),
       n :: (propagateComps f (n :: v) g.components st).done⟩ := by
  unfold propagate
  rw [if_neg (by rw [h1]; simp), hg]
  dsimp only
  rw [if_neg (by rw [hce]; simp)]
  have hq : (propagateComps f (n :: v) g.components st) =
      g.components.foldl (fun s c => propagate f (n :: v) c.baseGlyph s) st := rfl
  rw [← hq, hg1]

theorem lookupGlyph_name (gs : List Glyph) (n : String) (g : Glyph)
    (h : lookupGlyph gs n = some g) : g.name = n := by
  have := List.find?_some h
  simpa using this

theorem lookupGlyph_cons_pos (g : Glyph) (rest : List Glyph) (n : String)
    (h : (g.name == n) = true) : lookupGlyph (g :: rest) n = some g := by
  simp [lookupGlyph, List.find?_cons, h]

theorem lookupGlyph_cons_neg (g : Glyph) (rest : List Glyph) (n : String)
    (h : (g.name == n) = false) :
    lookupGlyph (g :: rest) n = lookupGlyph rest n := by
  simp [lookupGlyph, List.find?_cons, h]

theorem appendAnchors_cons (g : Glyph) (rest : List Glyph) (n : String)
    (extra : List Anchor) :
    appendAnchors (g :: rest) n extra =
      (if g.name == n then { g with anchors := g.anchors ++ extra } else g) ::
        appendAnchors rest n extra := rfl

theorem appendAnchors_lookup_ne (gs : List Glyph) (n : String)
    (extra : List Anchor) (m : String) (h : m ≠ n) :
    lookupGlyph (appendAnchors gs n extra) m = lookupGlyph gs m := by
  induction gs with
  | nil => rfl
  | cons g rest ih =>
    rw [appendAnchors_cons]
    cases hm : g.name == m with
    | true =>
      have hgm : g.name = m := by simpa using hm
      have hn : (g.name == n) = false := by
        rw [hgm]
        simp
        exact h
      rw [if_neg (by rw [hn]; simp), lookupGlyph_cons_pos g _ m hm,
        lookupGlyph_cons_pos g rest m hm]
    | false =>
      by_cases hn : (g.name == n) = true
      · rw [if_pos hn, lookupGlyph_cons_neg _ _ m (by simpa using hm),
          lookupGlyph_cons_neg g rest m hm]
        exact ih
      · rw [if_neg hn, lookupGlyph_cons_neg g _ m hm,
          lookupGlyph_cons_neg g rest m hm]
        exact ih

theorem appendAnchors_lookup_self (gs : List Glyph) (n : String)
    (extra : List Anchor) (g : Glyph) (h : lookupGlyph gs n = some g) :
    lookupGlyph (appendAnchors gs n extra) n =
      some { g with anchors := g.anchors ++ extra } := by
  induction gs with
  | nil => cases h
  | cons g0 rest ih =>
    rw [appendAnchors_cons]
    by_cases hn : (g0.name == n) = true
    · rw [lookupGlyph_cons_pos g0 rest n hn] at h
      have hg : g0 = g := by simpa using h
      subst hg
      rw [if_pos hn, lookupGlyph_cons_pos _ _ n (by simpa using hn)]
    · have hn2 : (g0.name == n) = false := by
        cases hx : g0.name == n
        · rfl
        · exact absurd hx hn
      rw [lookupGlyph_cons_neg g0 rest n hn2] at h
      rw [if_neg hn, lookupGlyph_cons_neg g0 _ n hn2]
      exact ih h

theorem appendAnchors_nil (gs : List Glyph) (n : String) :
    appendAnchors gs n [] = gs := by
  induction gs with
  | nil => rfl
  | cons g rest ih =>
    show (if g.name == n then { g with anchors := g.anchors ++ [] } else g) ::
        appendAnchors rest n [] = g :: rest
    rw [ih]
    by_cases h : (g.name == n) = true
    · rw [if_pos h]
      cases g
      simp
    · rw [if_neg (by simp [Bool.eq_false_iff.mpr h])]

theorem shapeOf_appendAnchors (gs : List Glyph) (n : String)
    (extra : List Anchor) : shapeOf (appendAnchors gs n extra) = shapeOf gs := by
  induction gs with
  | nil => rfl
  | cons g rest ih =>
    show ((if g.name == n then { g with anchors := g.anchors ++ extra } else g).name,
          (if g.name == n then { g with anchors := g.anchors ++ extra } else g).components) ::
        shapeOf (appendAnchors rest n extra) = (g.name, g.components) :: shapeOf rest
    rw [ih]
    by_cases h : (g.name == n) = true
    · rw [if_pos h]
    · rw [if_neg (by simp [Bool.eq_false_iff.mpr h])]

theorem shape_lookup (gsA gsB : List Glyph) (n : String)
    (h : shapeOf gsA = shapeOf gsB) :
    (lookupGlyph gsA n).map (fun g => (g.name, g.components)) =
      (lookupGlyph gsB n).map (fun g => (g.name, g.components)) := by
  induction gsA generalizing gsB with
  | nil =>
    cases gsB with
    | nil => rfl
    | cons b tb => exact absurd h (by simp [shapeOf])
  | cons a ta ih =>
    cases gsB with
    | nil => exact absurd h (by simp [shapeOf])
    | cons b tb =>
      simp only [shapeOf, List.map_cons, List.cons.injEq, Prod.mk.injEq] at h
      obtain ⟨⟨hn, hc⟩, ht⟩ := h
      cases hm : a.name == n with
      | true =>
        have hbm : (b.name == n) = true := by rw [← hn]; exact hm
        rw [show lookupGlyph (a :: ta) n = some a from by
            simp [lookupGlyph, List.find?_cons, hm],
          show lookupGlyph (b :: tb) n = some b from by
            simp [lookupGlyph, List.find?_cons, hbm]]
        simp [hn, hc]
      | false =>
        have hbm : (b.name == n) = false := by rw [← hn]; exact hm
        rw [show lookupGlyph (a :: ta) n = lookupGlyph ta n from by
            simp [lookupGlyph, List.find?_cons, hm],
          show lookupGlyph (b :: tb) n = lookupGlyph tb n from by
            simp [lookupGlyph, List.find?_cons, hbm]]
        exact ih tb (by simpa [shapeOf] using ht)

theorem bool_eq_false {b : Bool} (h : ¬ b = true) : b = false := by
  cases b
  · rfl
  · exact absurd rfl h

theorem shape_lookup_none (gsA gsB : List Glyph) (n : String)
    (h : shapeOf gsA = shapeOf gsB) (hA : lookupGlyph gsA n = none) :
    lookupGlyph gsB n = none := by
  have := shape_lookup gsA gsB n h
  rw [hA] at this
  cases hB : lookupGlyph gsB n with
  | none => rfl
  | some g => rw [hB] at this; cases this

theorem shape_lookup_some (gsA gsB : List Glyph) (n : String) (g : Glyph)
    (h : shapeOf gsA = shapeOf gsB) (hA : lookupGlyph gsA n = some g) :
    ∃ g2, lookupGlyph gsB n = some g2 ∧ g2.name = g.name ∧
      g2.components = g.components := by
  have := shape_lookup gsA gsB n h
  rw [hA] at this
  cases hB : lookupGlyph gsB n with
  | none => rw [hB] at this; cases this
  | some g2 =>
    rw [hB] at this
    simp only [Option.map_some', Option.some_inj, Prod.mk.injEq] at this
    exact ⟨g2, rfl, this.1.symm, this.2.symm⟩

theorem propagate_shape : ∀ (f : Nat) (v : List String) (n : String)
    (st : PropState), shapeOf (propagate f v n st).glyphs = shapeOf st.glyphs := by
  intro f
  induction f with
  | zero => intro v n st; rw [propagate_zero]
  | succ f ih =>
    have ihc : ∀ (v : List String) (cs : List Component) (st : PropState),
        shapeOf (propagateComps f v cs st).glyphs = shapeOf st.glyphs := by
      intro v cs
      induction cs with
      | nil => intro st; rw [propagateComps_nil]
      | cons c cs ihcs =>
        intro st
        rw [propagateComps_cons, ihcs, ih]
    intro v n st
    by_cases h1 : (st.done.contains n || v.contains n) = true
    · rw [propagate_succ_skip f v n st h1]
    · have h1f := bool_eq_false h1
      cases hg : lookupGlyph st.glyphs n with
      | none => rw [propagate_succ_nolookup f v n st h1f hg]
      | some g =>
        cases hce : g.components.isEmpty with
        | true => rw [propagate_succ_empty f v n st g h1f hg hce]
        | false =>
          cases hg1 : lookupGlyph (propagateComps f (n :: v) g.components st).glyphs n with
          | none =>
            rw [propagate_succ_main_none f v n st g h1f hg hce hg1]
            exact ihc _ _ _
          | some g1 =>
            rw [propagate_succ_main_some f v n st g g1 h1f hg hce hg1]
            show shapeOf (appendAnchors _ n _) = _
            rw [shapeOf_appendAnchors]
            exact ihc _ _ _

theorem propagateComps_shape (f : Nat) (v : List String) (cs : List Component)
    (st : PropState) :
    shapeOf (propagateComps f v cs st).glyphs = shapeOf st.glyphs := by
  induction cs generalizing st with
  | nil => rw [propagateComps_nil]
  | cons c cs ih => rw [propagateComps_cons, ih, propagate_shape]

theorem propagate_done_suffix : ∀ (f : Nat) (v : List String) (n : String)
    (st : PropState), st.done <:+ (propagate f v n st).done := by
  intro f
  induction f with
  | zero => intro v n st; rw [propagate_zero]
  | succ f ih =>
    have ihc : ∀ (v : List String) (cs : List Component) (st : PropState),
        st.done <:+ (propagateComps f v cs st).done := by
      intro v cs
      induction cs with
      | nil => intro st; rw [propagateComps_nil]
      | cons c cs ihcs =>
        intro st
        rw [propagateComps_cons]
        exact (ih v c.baseGlyph st).trans (ihcs _)
    intro v n st
    by_cases h1 : (st.done.contains n || v.contains n) = true
    · rw [propagate_succ_skip f v n st h1]
    · have h1f := bool_eq_false h1
      cases hg : lookupGlyph st.glyphs n with
      | none =>
        rw [propagate_succ_nolookup f v n st h1f hg]
        exact List.suffix_cons n st.done
      | some g =>
        cases hce : g.components.isEmpty with
        | true =>
          rw [propagate_succ_empty f v n st g h1f hg hce]
          exact List.suffix_cons n st.done
        | false =>
          cases hg1 : lookupGlyph (propagateComps f (n :: v) g.components st).glyphs n with
          | none =>
            rw [propagate_succ_main_none f v n st g h1f hg hce hg1]
            exact (ihc _ _ _).trans (List.suffix_cons n _)
          | some g1 =>
            rw [propagate_succ_main_some f v n st g g1 h1f hg hce hg1]
            exact (ihc _ _ _).trans (List.suffix_cons n _)

theorem propagateComps_done_suffix (f : Nat) (v : List String)
    (cs : List Component) (st : PropState) :
    st.done <:+ (propagateComps f v cs st).done := by
  induction cs generalizing st with
  | nil => rw [propagateComps_nil]
  | cons c cs ih =>
    rw [propagateComps_cons]
    exact (propagate_done_suffix f v c.baseGlyph st).trans (ih _)

theorem propagate_done_new : ∀ (f : Nat) (v : List String) (n : String)
    (st : PropState) (m : String), m ∈ (propagate f v n st).done →
    m ∈ st.done ∨ m ∉ v := by
  intro f
  induction f with
  | zero => intro v n st m hm; rw [propagate_zero] at hm; exact Or.inl hm
  | succ f ih =>
    have ihc : ∀ (v : List String) (cs : List Component) (st : PropState)
        (m : String), m ∈ (propagateComps f v cs st).done →
        m ∈ st.done ∨ m ∉ v := by
      intro v cs
      induction cs with
      | nil => intro st m hm; rw [propagateComps_nil] at hm; exact Or.inl hm
      | cons c cs ihcs =>
        intro st m hm
        rw [propagateComps_cons] at hm
        rcases ihcs _ m hm with h2 | h2
        · exact ih v c.baseGlyph st m h2
        · exact Or.inr h2
    intro v n st m hm
    by_cases h1 : (st.done.contains n || v.contains n) = true
    · rw [propagate_succ_skip f v n st h1] at hm
      exact Or.inl hm
    · have h1f := bool_eq_false h1
      have hnv : n ∉ v := by
        have : v.contains n = false := by
          rcases Bool.or_eq_false_iff.mp h1f with ⟨_, h⟩
          exact h
        simpa using this
      cases hg : lookupGlyph st.glyphs n with
      | none =>
        rw [propagate_succ_nolookup f v n st h1f hg] at hm
        rcases List.mem_cons.mp hm with h2 | h2
        · subst h2; exact Or.inr hnv
        · exact Or.inl h2
      | some g =>
        cases hce : g.components.isEmpty with
        | true =>
          rw [propagate_succ_empty f v n st g h1f hg hce] at hm
          rcases List.mem_cons.mp hm with h2 | h2
          · subst h2; exact Or.inr hnv
          · exact Or.inl h2
        | false =>
          have hmain : m ∈ n :: (propagateComps f (n :: v) g.components st).done := by
            cases hg1 : lookupGlyph (propagateComps f (n :: v) g.components st).glyphs n with
            | none =>
              rw [propagate_succ_main_none f v n st g h1f hg hce hg1] at hm
              exact hm
            | some g1 =>
              rw [propagate_succ_main_some f v n st g g1 h1f hg hce hg1] at hm
              exact hm
          rcases List.mem_cons.mp hmain with h2 | h2
          · subst h2; exact Or.inr hnv
          · rcases ihc (n :: v) g.components st m h2 with h3 | h3
            · exact Or.inl h3
            · exact Or.inr (fun hv => h3 (List.mem_cons_of_mem n hv))

theorem propagateComps_done_new (f : Nat) (v : List String) (cs : List Component)
    (st : PropState) (m : String) (hm : m ∈ (propagateComps f v cs st).done) :
    m ∈ st.done ∨ m ∉ v := by
  induction cs generalizing st with
  | nil => rw [propagateComps_nil] at hm; exact Or.inl hm
  | cons c cs ih =>
    rw [propagateComps_cons] at hm
    rcases ih _ hm with h2 | h2
    · exact propagate_done_new f v c.baseGlyph st m h2
    · exact Or.inr h2

theorem propagate_done_stable : ∀ (f : Nat) (v : List String) (n : String)
    (st : PropState) (m : String), m ∈ st.done →
    lookupGlyph (propagate f v n st).glyphs m = lookupGlyph st.glyphs m := by
  intro f
  induction f with
  | zero => intro v n st m hm; rw [propagate_zero]
  | succ f ih =>
    have ihc : ∀ (v : List String) (cs : List Component) (st : PropState)
        (m : String), m ∈ st.done →
        lookupGlyph (propagateComps f v cs st).glyphs m =
          lookupGlyph st.glyphs m := by
      intro v cs
      induction cs with
      | nil => intro st m hm; rw [propagateComps_nil]
      | cons c cs ihcs =>
        intro st m hm
        rw [propagateComps_cons]
        have hm2 : m ∈ (propagate f v c.baseGlyph st).done :=
          (propagate_done_suffix f v c.baseGlyph st).subset hm
        exact (ihcs _ m hm2).trans (ih v c.baseGlyph st m hm)
    intro v n st m hm
    by_cases h1 : (st.done.contains n || v.contains n) = true
    · rw [propagate_succ_skip f v n st h1]
    · have h1f := bool_eq_false h1
      have hnd : n ∉ st.done := by
        have : st.done.contains n = false :=
          (Bool.or_eq_false_iff.mp h1f).1
        simpa using this
      cases hg : lookupGlyph st.glyphs n with
      | none => rw [propagate_succ_nolookup f v n st h1f hg]
      | some g =>
        cases hce : g.components.isEmpty with
        | true => rw [propagate_succ_empty f v n st g h1f hg hce]
        | false =>
          cases hg1 : lookupGlyph (propagateComps f (n :: v) g.components st).glyphs n with
          | none =>
            rw [propagate_succ_main_none f v n st g h1f hg hce hg1]
            exact ihc _ _ _ m hm
          | some g1 =>
            rw [propagate_succ_main_some f v n st g g1 h1f hg hce hg1]
            show lookupGlyph (appendAnchors _ n _) m = _
            have hmn : m ≠ n := fun h => hnd (h ▸ hm)
            rw [appendAnchors_lookup_ne _ n _ m hmn]
            exact ihc _ _ _ m hm

theorem propagateComps_done_stable (f : Nat) (v : List String)
    (cs : List Component) (st : PropState) (m : String) (hm : m ∈ st.done) :
    lookupGlyph (propagateComps f v cs st).glyphs m = lookupGlyph st.glyphs m := by
  induction cs generalizing st with
  | nil => rw [propagateComps_nil]
  | cons c cs ih =>
    rw [propagateComps_cons]
    have hm2 : m ∈ (propagate f v c.baseGlyph st).done :=
      (propagate_done_suffix f v c.baseGlyph st).subset hm
    exact (ih _ hm2).trans (propagate_done_stable f v c.baseGlyph st m hm)

theorem propagate_done_det : ∀ (f : Nat) (v : List String) (n : String)
    (stA stB : PropState), shapeOf stA.glyphs = shapeOf stB.glyphs →
    stA.done = stB.done →
    (propagate f v n stA).done = (propagate f v n stB).done := by
  intro f
  induction f with
  | zero => intro v n stA stB hsh hdn; rw [propagate_zero, propagate_zero]; exact hdn
  | succ f ih =>
    have ihc : ∀ (v : List String) (cs : List Component) (stA stB : PropState),
        shapeOf stA.glyphs = shapeOf stB.glyphs → stA.done = stB.done →
        (propagateComps f v cs stA).done = (propagateComps f v cs stB).done := by
      intro v cs
      induction cs with
      | nil => intro stA stB hsh hdn; rw [propagateComps_nil, propagateComps_nil]; exact hdn
      | cons c cs ihcs =>
        intro stA stB hsh hdn
        rw [propagateComps_cons, propagateComps_cons]
        apply ihcs
        · rw [propagate_shape, propagate_shape]
          exact hsh
        · exact ih v c.baseGlyph stA stB hsh hdn
    intro v n stA stB hsh hdn
    by_cases h1 : (stA.done.contains n || v.contains n) = true
    · have h1B : (stB.done.contains n || v.contains n) = true := by
        rw [← hdn]; exact h1
      rw [propagate_succ_skip f v n stA h1, propagate_succ_skip f v n stB h1B]
      exact hdn
    · have h1f := bool_eq_false h1
      have h1Bf : (stB.done.contains n || v.contains n) = false := by
        rw [← hdn]; exact h1f
      cases hgA : lookupGlyph stA.glyphs n with
      | none =>
        have hgB := shape_lookup_none stA.glyphs stB.glyphs n hsh hgA
        rw [propagate_succ_nolookup f v n stA h1f hgA,
          propagate_succ_nolookup f v n stB h1Bf hgB]
        rw [hdn]
      | some gA =>
        obtain ⟨gB, hgB, hname, hcomps⟩ :=
          shape_lookup_some stA.glyphs stB.glyphs n gA hsh hgA
        cases hce : gA.components.isEmpty with
        | true =>
          have hceB : gB.components.isEmpty = true := by rw [hcomps]; exact hce
          rw [propagate_succ_empty f v n stA gA h1f hgA hce,
            propagate_succ_empty f v n stB gB h1Bf hgB hceB]
          rw [hdn]
        | false =>
          have hceB : gB.components.isEmpty = false := by rw [hcomps]; exact hce
          have hdone : (propagateComps f (n :: v) gA.components stA).done =
              (propagateComps f (n :: v) gB.components stB).done := by
            rw [hcomps]
            exact ihc (n :: v) gA.components stA stB hsh hdn
          have hA : (propagate (Nat.succ f) v n stA).done =
              n :: (propagateComps f (n :: v) gA.components stA).done := by
            cases hg1 : lookupGlyph (propagateComps f (n :: v) gA.components stA).glyphs n with
            | none => rw [propagate_succ_main_none f v n stA gA h1f hgA hce hg1]
            | some g1 => rw [propagate_succ_main_some f v n stA gA g1 h1f hgA hce hg1]
          have hB : (propagate (Nat.succ f) v n stB).done =
              n :: (propagateComps f (n :: v) gB.components stB).done := by
            cases hg1 : lookupGlyph (propagateComps f (n :: v) gB.components stB).glyphs n with
            | none => rw [propagate_succ_main_none f v n stB gB h1Bf hgB hceB hg1]
            | some g1 => rw [propagate_succ_main_some f v n stB gB g1 h1Bf hgB hceB hg1]
          rw [hA, hB, hdone]

theorem propagateComps_done_det (f : Nat) (v : List String) (cs : List Component)
    (stA stB : PropState) (hsh : shapeOf stA.glyphs = shapeOf stB.glyphs)
    (hdn : stA.done = stB.done) :
    (propagateComps f v cs stA).done = (propagateComps f v cs stB).done := by
  induction cs generalizing stA stB with
  | nil => rw [propagateComps_nil, propagateComps_nil]; exact hdn
  | cons c cs ih =>
    rw [propagateComps_cons, propagateComps_cons]
    apply ih
    · rw [propagate_shape, propagate_shape]
      exact hsh
    · exact propagate_done_det f v c.baseGlyph stA stB hsh hdn

theorem mem_dedupStrs (l : List String) (an : String) :
    an ∈ dedupStrs l ↔ an ∈ l := by
  induction l with
  | nil => rfl
  | cons s rest ih =>
    show an ∈ s :: (dedupStrs rest).filter (fun t => !(t == s)) ↔ _
    constructor
    · intro h
      rcases List.mem_cons.mp h with h1 | h1
      · exact h1 ▸ List.mem_cons_self _ _
      · exact List.mem_cons_of_mem s (ih.mp (List.mem_of_mem_filter h1))
    · intro h
      rcases List.mem_cons.mp h with h1 | h1
      · exact h1 ▸ List.mem_cons_self _ _
      · by_cases hs : an = s
        · exact hs ▸ List.mem_cons_self _ _
        · refine List.mem_cons_of_mem s (List.mem_filter.mpr ⟨ih.mpr h1, ?_⟩)
          simp [hs]

theorem mem_foldr_names (gs : List Glyph) (done : List String)
    (L : List Component) (an : String) :
    an ∈ L.foldr (fun c acc => (edgeAnchors gs done c).map
        (fun a => a.name) ++ acc) [] ↔
      ∃ c ∈ L, ∃ a ∈ edgeAnchors gs done c, a.name = an := by
  induction L with
  | nil => simp
  | cons c cs ih =>
    simp only [List.foldr_cons, List.mem_append, List.mem_map, ih,
      List.mem_cons]
    constructor
    · rintro (⟨a, ha, rfl⟩ | ⟨c2, hc2, a, ha, hn⟩)
      · exact ⟨c, Or.inl rfl, a, ha, rfl⟩
      · exact ⟨c2, Or.inr hc2, a, ha, hn⟩
    · rintro ⟨c2, hc2 | hc2, a, ha, hn⟩
      · subst hc2; exact Or.inl ⟨a, ha, hn⟩
      · exact Or.inr ⟨c2, hc2, a, ha, hn⟩

theorem mem_contribNames (gs : List Glyph) (done : List String)
    (cs : List Component) (an : String) :
    an ∈ contribNames gs done cs ↔
      ∃ c ∈ baseComponents gs done cs, ∃ a ∈ edgeAnchors gs done c,
        a.name = an := by
  rw [contribNames, mem_dedupStrs, namesFromBases, mem_foldr_names]

theorem findAnchorData_isSome (gs : List Glyph) (done : List String) :
    ∀ (bases : List Component) (an : String),
      (∃ c ∈ bases, ∃ a ∈ edgeAnchors gs done c, a.name = an) →
      ∃ p, findAnchorData gs done bases an = some p := by
  intro bases
  induction bases with
  | nil => rintro an ⟨c, hc, _⟩; cases hc
  | cons c rest ih =>
    rintro an ⟨c2, hc2, a, ha, hn⟩
    show ∃ p, (match (edgeAnchors gs done c).find? (fun a => a.name == an) with
      | some a => some (c.transform.apply a.x a.y)
      | none => findAnchorData gs done rest an) = some p
    cases hf : (edgeAnchors gs done c).find? (fun a => a.name == an) with
    | some a2 => exact ⟨_, rfl⟩
    | none =>
      rcases List.mem_cons.mp hc2 with h1 | h1
      · subst h1
        have := List.find?_eq_none.mp hf a ha
        exact absurd (by simp [hn]) this
      · exact ih an ⟨c2, h1, a, ha, hn⟩

theorem adjustOne_keys (c : Component) (a : Anchor)
    (td : List (String × Int × Int)) :
    (adjustOne c a td).map (fun e => e.1) = td.map (fun e => e.1) := by
  unfold adjustOne
  by_cases h1 : isMarkName a.name = true
  · rw [if_pos h1]
  · rw [if_neg (by rw [bool_eq_false h1]; simp)]
    by_cases h2 : td.any (fun e => e.1 == a.name) = true
    · rw [if_pos h2, List.map_map]
      apply List.map_congr_left
      intro e _
      by_cases he : (e.1 == a.name) = true
      · have : e.1 = a.name := by simpa using he
        simp only [Function.comp_apply, if_pos he]
        exact this.symm
      · have he3 : ¬ (e.1 = a.name) := by simpa using he
        simp [if_neg he3]
    · rw [if_neg (by rw [bool_eq_false h2]; simp)]

theorem foldl_adjustOne_keys (c : Component) :
    ∀ (l : List Anchor) (td : List (String × Int × Int)),
      ((l.foldl (fun t a => adjustOne c a t) td).map (fun e => e.1)) =
        td.map (fun e => e.1) := by
  intro l
  induction l with
  | nil => intro td; rfl
  | cons a as ih =>
    intro td
    rw [List.foldl_cons, ih, adjustOne_keys]

theorem adjustForMark_keys (gs : List Glyph) (done : List String)
    (td : List (String × Int × Int)) (c : Component) :
    (adjustForMark gs done td c).map (fun e => e.1) = td.map (fun e => e.1) :=
  foldl_adjustOne_keys c _ td

theorem toAddFor_keys (gs : List Glyph) (done : List String) (g : Glyph) :
    (toAddFor gs done g).map (fun e => e.1) =
      (initialToAdd gs done g).map (fun e => e.1) := by
  unfold toAddFor
  generalize initialToAdd gs done g = td
  induction markComponents gs done g.components generalizing td with
  | nil => rfl
  | cons c cs ih =>
    rw [List.foldl_cons, ih, adjustForMark_keys]

theorem initialToAdd_eq_nil (gs : List Glyph) (done : List String) (g : Glyph)
    (hpres : ∀ an ∈ contribNames gs done g.components,
      hasAnchorNamed g.anchors an = true) :
    initialToAdd gs done g = [] := by
  apply List.filterMap_eq_nil_iff.mpr
  intro an han
  rw [if_pos (hpres an han)]

theorem toAddFor_eq_nil (gs : List Glyph) (done : List String) (g : Glyph)
    (hpres : ∀ an ∈ contribNames gs done g.components,
      hasAnchorNamed g.anchors an = true) :
    toAddFor gs done g = [] := by
  have hk := toAddFor_keys gs done g
  rw [initialToAdd_eq_nil gs done g hpres] at hk
  exact List.map_eq_nil_iff.mp hk

theorem mem_keys_initialToAdd (gs : List Glyph) (done : List String) (g : Glyph)
    (an : String) (han : an ∈ contribNames gs done g.components)
    (hnot : hasAnchorNamed g.anchors an = false) :
    an ∈ (initialToAdd gs done g).map (fun e => e.1) := by
  obtain ⟨c, hc, a, ha, hn⟩ := (mem_contribNames gs done g.components an).mp han
  obtain ⟨p, hp⟩ := findAnchorData_isSome gs done
    (baseComponents gs done g.components) an ⟨c, hc, a, ha, hn⟩
  apply List.mem_map.mpr
  refine ⟨(an, p.1, p.2), ?_, rfl⟩
  apply List.mem_filterMap.mpr
  refine ⟨an, han, ?_⟩
  rw [if_neg (by rw [hnot]; simp), hp]
  rfl

theorem mem_insertAnchor (a : Anchor) :
    ∀ (l : List Anchor) (x : Anchor), x ∈ insertAnchor a l ↔ x = a ∨ x ∈ l := by
  intro l
  induction l with
  | nil => intro x; simp [insertAnchor]
  | cons b bs ih =>
    intro x
    show x ∈ (if strLt b.name a.name then b :: insertAnchor a bs
      else a :: b :: bs) ↔ _
    by_cases h : strLt b.name a.name = true
    · rw [if_pos h]
      simp only [List.mem_cons, ih]
      constructor
      · rintro (h1 | h1 | h1)
        · exact Or.inr (Or.inl h1)
        · exact Or.inl h1
        · exact Or.inr (Or.inr h1)
      · rintro (h1 | h1 | h1)
        · exact Or.inr (Or.inl h1)
        · exact Or.inl h1
        · exact Or.inr (Or.inr h1)
    · rw [if_neg (by rw [bool_eq_false h]; simp)]
      simp [List.mem_cons]

theorem mem_sortToAdd (td : List (String × Int × Int)) (x : Anchor) :
    x ∈ sortToAdd td ↔
      x ∈ td.map (fun e => (⟨e.1, e.2.1, e.2.2⟩ : Anchor)) := by
  unfold sortToAdd
  generalize td.map (fun e => (⟨e.1, e.2.1, e.2.2⟩ : Anchor)) = l
  induction l with
  | nil => rfl
  | cons a as ih =>
    rw [List.foldr_cons]
    rw [mem_insertAnchor]
    rw [ih, List.mem_cons]

theorem sortToAdd_name_mem (td : List (String × Int × Int)) (an : String)
    (h : an ∈ td.map (fun e => e.1)) :
    ∃ a ∈ sortToAdd td, a.name = an := by
  obtain ⟨e, he, hn⟩ := List.mem_map.mp h
  refine ⟨⟨e.1, e.2.1, e.2.2⟩, ?_, hn⟩
  exact (mem_sortToAdd td _).mpr (List.mem_map_of_mem _ he)

theorem hasAnchorNamed_append_left (l e : List Anchor) (an : String)
    (h : hasAnchorNamed l an = true) : hasAnchorNamed (l ++ e) an = true := by
  simp only [hasAnchorNamed] at h ⊢
  rw [List.any_append, h, Bool.true_or]

theorem hasAnchorNamed_of_mem (l : List Anchor) (a : Anchor) (an : String)
    (h : a ∈ l) (hn : a.name = an) : hasAnchorNamed l an = true := by
  simp only [hasAnchorNamed, List.any_eq_true]
  exact ⟨a, h, by simp [hn]⟩

theorem hasAnchorNamed_append_right (l e : List Anchor) (a : Anchor)
    (an : String) (h : a ∈ e) (hn : a.name = an) :
    hasAnchorNamed (l ++ e) an = true := by
  simp only [hasAnchorNamed, List.any_eq_true]
  exact ⟨a, List.mem_append_right l h, by simp [hn]⟩

theorem edge_eq (gsA gsB : List Glyph) (dA : List String)
    (hsh : shapeOf gsA = shapeOf gsB)
    (hag : ∀ b ∈ dA, lookupGlyph gsA b = lookupGlyph gsB b) (c : Component) :
    edgeAnchors gsA dA c = edgeAnchors gsB dA c := by
  unfold edgeAnchors
  by_cases hd : dA.contains c.baseGlyph = true
  · have hmem : c.baseGlyph ∈ dA := by simpa using hd
    rw [hag c.baseGlyph hmem]
  · have hd2 := bool_eq_false hd
    cases hA : lookupGlyph gsA c.baseGlyph with
    | none =>
      rw [shape_lookup_none gsA gsB c.baseGlyph hsh hA]
    | some gA =>
      obtain ⟨gB, hB, _, _⟩ := shape_lookup_some gsA gsB c.baseGlyph gA hsh hA
      rw [hB, hd2]
      simp

theorem contribNames_congr (gsA gsB : List Glyph) (dA : List String)
    (cs : List Component)
    (hedge : ∀ c ∈ cs, edgeAnchors gsA dA c = edgeAnchors gsB dA c) :
    contribNames gsA dA cs = contribNames gsB dA cs := by
  unfold contribNames namesFromBases baseComponents
  have hfilter : cs.filter (fun c => !isMarkComponent gsA dA c) =
      cs.filter (fun c => !isMarkComponent gsB dA c) := by
    apply List.filter_congr
    intro c hc
    rw [isMarkComponent, isMarkComponent, hedge c hc]
  rw [hfilter]
  have hsub : ∀ c ∈ cs.filter (fun c => !isMarkComponent gsB dA c),
      edgeAnchors gsA dA c = edgeAnchors gsB dA c := by
    intro c hc
    exact hedge c (List.mem_of_mem_filter hc)
  generalize hL : cs.filter (fun c => !isMarkComponent gsB dA c) = L at hsub
  clear hfilter hL hedge
  suffices h : L.foldr (fun c acc => (edgeAnchors gsA dA c).map
      (fun a => a.name) ++ acc) [] =
    L.foldr (fun c acc => (edgeAnchors gsB dA c).map
      (fun a => a.name) ++ acc) [] by rw [h]
  induction L with
  | nil => rfl
  | cons c cs2 ih =>
    rw [List.foldr_cons, List.foldr_cons,
      hsub c (List.mem_cons_self _ _),
      ih (fun c2 hc2 => hsub c2 (List.mem_cons_of_mem c hc2))]

theorem propagate_noop : ∀ (f : Nat) (v : List String) (n : String)
    (stA stB : PropState),
    shapeOf stA.glyphs = shapeOf stB.glyphs →
    stA.done = stB.done →
    (∀ m ∈ (propagate f v n stA).done,
       lookupGlyph (propagate f v n stA).glyphs m = lookupGlyph stB.glyphs m) →
    (propagate f v n stB).glyphs = stB.glyphs := by
  intro f
  induction f with
  | zero => intro v n stA stB _ _ _; rw [propagate_zero]
  | succ f ih =>
    have ihc : ∀ (v : List String) (cs : List Component) (stA stB : PropState),
        shapeOf stA.glyphs = shapeOf stB.glyphs →
        stA.done = stB.done →
        (∀ m ∈ (propagateComps f v cs stA).done,
           lookupGlyph (propagateComps f v cs stA).glyphs m =
             lookupGlyph stB.glyphs m) →
        (propagateComps f v cs stB).glyphs = stB.glyphs := by
      intro v cs
      induction cs with
      | nil => intro stA stB _ _ _; rw [propagateComps_nil]
      | cons c cs ihcs =>
        intro stA stB hsh hdn hf
        rw [propagateComps_cons] at hf
        have hf1 : ∀ m ∈ (propagate f v c.baseGlyph stA).done,
            lookupGlyph (propagate f v c.baseGlyph stA).glyphs m =
              lookupGlyph stB.glyphs m := by
          intro m hm
          have hm2 : m ∈ (propagateComps f v cs (propagate f v c.baseGlyph stA)).done :=
            (propagateComps_done_suffix f v cs _).subset hm
          have hst := propagateComps_done_stable f v cs
            (propagate f v c.baseGlyph stA) m hm
          exact hst.symm.trans (hf m hm2)
        have hBg : (propagate f v c.baseGlyph stB).glyphs = stB.glyphs :=
          ih v c.baseGlyph stA stB hsh hdn hf1
        have hBd : (propagate f v c.baseGlyph stB).done =
            (propagate f v c.baseGlyph stA).done :=
          (propagate_done_det f v c.baseGlyph stA stB hsh hdn).symm
        have hsh2 : shapeOf (propagate f v c.baseGlyph stA).glyphs =
            shapeOf (propagate f v c.baseGlyph stB).glyphs := by
          rw [propagate_shape, propagate_shape]
          exact hsh
        have hf2 : ∀ m ∈ (propagateComps f v cs (propagate f v c.baseGlyph stA)).done,
            lookupGlyph (propagateComps f v cs (propagate f v c.baseGlyph stA)).glyphs m =
              lookupGlyph (propagate f v c.baseGlyph stB).glyphs m := by
          intro m hm
          rw [hBg]
          exact hf m hm
        have hstep := ihcs (propagate f v c.baseGlyph stA)
          (propagate f v c.baseGlyph stB) hsh2 hBd.symm hf2
        rw [propagateComps_cons, hstep, hBg]
    intro v n stA stB hsh hdn hfin
    by_cases h1 : (stB.done.contains n || v.contains n) = true
    · rw [propagate_succ_skip f v n stB h1]
    · have h1f := bool_eq_false h1
      have h1A : (stA.done.contains n || v.contains n) = false := by
        rw [hdn]; exact h1f
      cases hgB : lookupGlyph stB.glyphs n with
      | none => rw [propagate_succ_nolookup f v n stB h1f hgB]
      | some gB =>
        cases hceB : gB.components.isEmpty with
        | true => rw [propagate_succ_empty f v n stB gB h1f hgB hceB]
        | false =>
          obtain ⟨gA, hgA, hnameA, hcompsA⟩ :=
            shape_lookup_some stB.glyphs stA.glyphs n gB hsh.symm hgB
          have hceA : gA.components.isEmpty = false := by
            rw [hcompsA]; exact hceB
          have hnA : n ∉ (propagateComps f (n :: v) gA.components stA).done := by
            intro hmem
            rcases propagateComps_done_new f (n :: v) gA.components stA n hmem
              with h2 | h2
            · have h3 : stA.done.contains n = false :=
                (Bool.or_eq_false_iff.mp h1A).1
              exact absurd h2 (by simpa using h3)
            · exact h2 (List.mem_cons_self n v)
          have hAfull_done : (propagate (Nat.succ f) v n stA).done =
              n :: (propagateComps f (n :: v) gA.components stA).done := by
            cases hg1 : lookupGlyph (propagateComps f (n :: v) gA.components stA).glyphs n with
            | none => rw [propagate_succ_main_none f v n stA gA h1A hgA hceA hg1]
            | some g1 => rw [propagate_succ_main_some f v n stA gA g1 h1A hgA hceA hg1]
          have hfc : ∀ m ∈ (propagateComps f (n :: v) gA.components stA).done,
              lookupGlyph (propagateComps f (n :: v) gA.components stA).glyphs m =
                lookupGlyph stB.glyphs m := by
            intro m hm
            have hmn : m ≠ n := fun h => hnA (h ▸ hm)
            have hmfull : m ∈ (propagate (Nat.succ f) v n stA).done := by
              rw [hAfull_done]
              exact List.mem_cons_of_mem n hm
            have hstab : lookupGlyph (propagate (Nat.succ f) v n stA).glyphs m =
                lookupGlyph (propagateComps f (n :: v) gA.components stA).glyphs m := by
              cases hg1 : lookupGlyph (propagateComps f (n :: v) gA.components stA).glyphs n with
              | none => rw [propagate_succ_main_none f v n stA gA h1A hgA hceA hg1]
              | some g1 =>
                rw [propagate_succ_main_some f v n stA gA g1 h1A hgA hceA hg1]
                show lookupGlyph (appendAnchors _ n _) m = _
                exact appendAnchors_lookup_ne _ n _ m hmn
            exact hstab.symm.trans (hfin m hmfull)
          have hBc : (propagateComps f (n :: v) gA.components stB).glyphs = stB.glyphs :=
            ihc (n :: v) gA.components stA stB hsh hdn hfc
          have hBcd : (propagateComps f (n :: v) gA.components stB).done =
              (propagateComps f (n :: v) gA.components stA).done :=
            (propagateComps_done_det f (n :: v) gA.components stA stB hsh hdn).symm
          have hgB1 : lookupGlyph (propagateComps f (n :: v) gB.components stB).glyphs n =
              some gB := by
            rw [← hcompsA, hBc]
            exact hgB
          have hBres : (propagate (Nat.succ f) v n stB).glyphs =
              appendAnchors (propagateComps f (n :: v) gB.components stB).glyphs n
                (sortToAdd (toAddFor (propagateComps f (n :: v) gB.components stB).glyphs
                  (propagateComps f (n :: v) gB.components stB).done gB)) := by
            rw [propagate_succ_main_some f v n stB gB gB h1f hgB hceB hgB1]
          rw [← hcompsA] at hBres
          rw [hBc, hBcd] at hBres
          obtain ⟨g1A, hg1Aeq, hg1name, hg1comps⟩ :=
            shape_lookup_some stB.glyphs
              (propagateComps f (n :: v) gA.components stA).glyphs n gB
              (by rw [propagateComps_shape]; exact hsh.symm) hgB
          have hAfull_glyphs : lookupGlyph (propagate (Nat.succ f) v n stA).glyphs n =
              some { g1A with anchors := (g1A.anchors ++
                sortToAdd (toAddFor (propagateComps f (n :: v) gA.components stA).glyphs
                  (propagateComps f (n :: v) gA.components stA).done g1A)) } := by
            rw [propagate_succ_main_some f v n stA gA g1A h1A hgA hceA hg1Aeq]
            show lookupGlyph (appendAnchors _ n _) n = _
            exact appendAnchors_lookup_self _ n _ g1A hg1Aeq
          have hnfull : n ∈ (propagate (Nat.succ f) v n stA).done := by
            rw [hAfull_done]
            exact List.mem_cons_self _ _
          have hanch : gB.anchors = g1A.anchors ++
              sortToAdd (toAddFor (propagateComps f (n :: v) gA.components stA).glyphs
                (propagateComps f (n :: v) gA.components stA).done g1A) := by
            have h5 := (hAfull_glyphs.symm.trans (hfin n hnfull)).trans hgB
            have h6 := Option.some_inj.mp h5
            exact congrArg Glyph.anchors h6.symm
          have hedge : ∀ c ∈ gB.components,
              edgeAnchors stB.glyphs
                (propagateComps f (n :: v) gA.components stA).done c =
              edgeAnchors (propagateComps f (n :: v) gA.components stA).glyphs
                (propagateComps f (n :: v) gA.components stA).done c := by
            intro c _
            exact (edge_eq (propagateComps f (n :: v) gA.components stA).glyphs
              stB.glyphs (propagateComps f (n :: v) gA.components stA).done
              (by rw [propagateComps_shape]; exact hsh) hfc c).symm
          have hnames : contribNames stB.glyphs
              (propagateComps f (n :: v) gA.components stA).done gB.components =
            contribNames (propagateComps f (n :: v) gA.components stA).glyphs
              (propagateComps f (n :: v) gA.components stA).done gB.components :=
            contribNames_congr _ _ _ gB.components hedge
          have htoAdd : toAddFor stB.glyphs
              (propagateComps f (n :: v) gA.components stA).done gB = [] := by
            apply toAddFor_eq_nil
            intro an han
            rw [hnames] at han
            by_cases hin : hasAnchorNamed g1A.anchors an = true
            · rw [hanch]
              exact hasAnchorNamed_append_left _ _ an hin
            · have hin2 : hasAnchorNamed g1A.anchors an = false := bool_eq_false hin
              have hkey : an ∈ (initialToAdd
                  (propagateComps f (n :: v) gA.components stA).glyphs
                  (propagateComps f (n :: v) gA.components stA).done g1A).map
                    (fun e => e.1) := by
                apply mem_keys_initialToAdd _ _ g1A an _ hin2
                rw [hg1comps]
                exact han
              have hkey2 : an ∈ (toAddFor
                  (propagateComps f (n :: v) gA.components stA).glyphs
                  (propagateComps f (n :: v) gA.components stA).done g1A).map
                    (fun e => e.1) := by
                rw [toAddFor_keys]
                exact hkey
              obtain ⟨a2, ha2, ha2n⟩ := sortToAdd_name_mem _ an hkey2
              rw [hanch]
              exact hasAnchorNamed_append_right _ _ a2 an ha2 ha2n
          rw [hBres, htoAdd]
          rw [show sortToAdd [] = ([] : List Anchor) from rfl]
          rw [appendAnchors_nil]

theorem runGo_nil (f : Nat) (st : PropState) (mods : List String) :
    runGo f [] st mods = (st, mods) := rfl

theorem runGo_cons_none (f : Nat) (n : String) (rest : List String)
    (st : PropState) (mods : List String)
    (h : lookupGlyph st.glyphs n = none) :
    runGo f (n :: rest) st mods = runGo f rest st mods := by
  conv_lhs => unfold runGo
  rw [h]

theorem runGo_cons_empty (f : Nat) (n : String) (rest : List String)
    (st : PropState) (mods : List String) (g : Glyph)
    (hg : lookupGlyph st.glyphs n = some g)
    (hce : g.components.isEmpty = true) :
    runGo f (n :: rest) st mods = runGo f rest st mods := by
  conv_lhs => unfold runGo
  rw [hg]
  dsimp only
  rw [if_pos hce]

theorem runGo_cons_go (f : Nat) (n : String) (rest : List String)
    (st : PropState) (mods : List String) (g : Glyph)
    (hg : lookupGlyph st.glyphs n = some g)
    (hce : g.components.isEmpty = false) :
    runGo f (n :: rest) st mods =
      runGo f rest (propagate f [] n st)
        (if g.anchors.length < (anchorsOf (propagate f [] n st).glyphs n).length
          then mods ++ [n] else mods) := by
  conv_lhs => unfold runGo
  rw [hg]
  dsimp only
  rw [if_neg (by rw [hce]; simp)]

theorem runGo_shape : ∀ (names : List String) (f : Nat) (st : PropState)
    (mods : List String),
    shapeOf (runGo f names st mods).1.glyphs = shapeOf st.glyphs := by
  intro names
  induction names with
  | nil => intro f st mods; rfl
  | cons n rest ih =>
    intro f st mods
    cases hg : lookupGlyph st.glyphs n with
    | none =>
      rw [runGo_cons_none f n rest st mods hg]
      exact ih f st mods
    | some g =>
      cases hce : g.components.isEmpty with
      | true =>
        rw [runGo_cons_empty f n rest st mods g hg hce]
        exact ih f st mods
      | false =>
        rw [runGo_cons_go f n rest st mods g hg hce]
        exact (ih f _ _).trans (propagate_shape f [] n st)

theorem runGo_done_suffix : ∀ (names : List String) (f : Nat) (st : PropState)
    (mods : List String),
    st.done <:+ (runGo f names st mods).1.done := by
  intro names
  induction names with
  | nil => intro f st mods; exact List.suffix_refl _
  | cons n rest ih =>
    intro f st mods
    cases hg : lookupGlyph st.glyphs n with
    | none =>
      rw [runGo_cons_none f n rest st mods hg]
      exact ih f st mods
    | some g =>
      cases hce : g.components.isEmpty with
      | true =>
        rw [runGo_cons_empty f n rest st mods g hg hce]
        exact ih f st mods
      | false =>
        rw [runGo_cons_go f n rest st mods g hg hce]
        exact (propagate_done_suffix f [] n st).trans (ih f _ _)

theorem runGo_done_stable : ∀ (names : List String) (f : Nat) (st : PropState)
    (mods : List String) (m : String), m ∈ st.done →
    lookupGlyph (runGo f names st mods).1.glyphs m = lookupGlyph st.glyphs m := by
  intro names
  induction names with
  | nil => intro f st mods m _; rfl
  | cons n rest ih =>
    intro f st mods m hm
    cases hg : lookupGlyph st.glyphs n with
    | none =>
      rw [runGo_cons_none f n rest st mods hg]
      exact ih f st mods m hm
    | some g =>
      cases hce : g.components.isEmpty with
      | true =>
        rw [runGo_cons_empty f n rest st mods g hg hce]
        exact ih f st mods m hm
      | false =>
        rw [runGo_cons_go f n rest st mods g hg hce]
        have hm2 : m ∈ (propagate f [] n st).done :=
          (propagate_done_suffix f [] n st).subset hm
        exact (ih f _ _ m hm2).trans (propagate_done_stable f [] n st m hm)

theorem runGo_noop : ∀ (names : List String) (f : Nat) (stA stB : PropState)
    (modsA modsB : List String),
    shapeOf stA.glyphs = shapeOf stB.glyphs →
    stA.done = stB.done →
    (∀ m ∈ (runGo f names stA modsA).1.done,
       lookupGlyph (runGo f names stA modsA).1.glyphs m =
         lookupGlyph stB.glyphs m) →
    (runGo f names stB modsB).1.glyphs = stB.glyphs ∧
      (runGo f names stB modsB).2 = modsB := by
  intro names
  induction names with
  | nil => intro f stA stB modsA modsB _ _ _; exact ⟨rfl, rfl⟩
  | cons n rest ih =>
    intro f stA stB modsA modsB hsh hdn hfin
    cases hgB : lookupGlyph stB.glyphs n with
    | none =>
      have hgA : lookupGlyph stA.glyphs n = none :=
        shape_lookup_none stB.glyphs stA.glyphs n hsh.symm hgB
      rw [runGo_cons_none f n rest stA modsA hgA] at hfin
      rw [runGo_cons_none f n rest stB modsB hgB]
      exact ih f stA stB modsA modsB hsh hdn hfin
    | some gB =>
      obtain ⟨gA, hgA, hnameA, hcompsA⟩ :=
        shape_lookup_some stB.glyphs stA.glyphs n gB hsh.symm hgB
      cases hceB : gB.components.isEmpty with
      | true =>
        have hceA : gA.components.isEmpty = true := by
          rw [hcompsA]; exact hceB
        rw [runGo_cons_empty f n rest stA modsA gA hgA hceA] at hfin
        rw [runGo_cons_empty f n rest stB modsB gB hgB hceB]
        exact ih f stA stB modsA modsB hsh hdn hfin
      | false =>
        have hceA : gA.components.isEmpty = false := by
          rw [hcompsA]; exact hceB
        rw [runGo_cons_go f n rest stA modsA gA hgA hceA] at hfin
        have hfin1 : ∀ m ∈ (propagate f [] n stA).done,
            lookupGlyph (propagate f [] n stA).glyphs m =
              lookupGlyph stB.glyphs m := by
          intro m hm
          have hm2 : m ∈ (runGo f rest (propagate f [] n stA)
              (if gA.anchors.length <
                  (anchorsOf (propagate f [] n stA).glyphs n).length
                then modsA ++ [n] else modsA)).1.done :=
            (runGo_done_suffix rest f (propagate f [] n stA)
              (if gA.anchors.length <
                  (anchorsOf (propagate f [] n stA).glyphs n).length
                then modsA ++ [n] else modsA)).subset hm
          have hst := runGo_done_stable rest f (propagate f [] n stA)
            (if gA.anchors.length <
                (anchorsOf (propagate f [] n stA).glyphs n).length
              then modsA ++ [n] else modsA) m hm
          exact hst.symm.trans (hfin m hm2)
        have hBg : (propagate f [] n stB).glyphs = stB.glyphs :=
          propagate_noop f [] n stA stB hsh hdn hfin1
        have hBd : (propagate f [] n stB).done = (propagate f [] n stA).done :=
          (propagate_done_det f [] n stA stB hsh hdn).symm
        rw [runGo_cons_go f n rest stB modsB gB hgB hceB]
        have hmods : (if gB.anchors.length <
            (anchorsOf (propagate f [] n stB).glyphs n).length
              then modsB ++ [n] else modsB) = modsB := by
          have ha : anchorsOf (propagate f [] n stB).glyphs n = gB.anchors := by
            rw [hBg]
            simp [anchorsOf, hgB]
          rw [ha]
          exact if_neg (Nat.lt_irrefl _)
        rw [hmods]
        have hsh2 : shapeOf (propagate f [] n stA).glyphs =
            shapeOf (propagate f [] n stB).glyphs := by
          rw [propagate_shape, propagate_shape]
          exact hsh
        have hfin2 : ∀ m ∈ (runGo f rest (propagate f [] n stA)
            (if gA.anchors.length <
                (anchorsOf (propagate f [] n stA).glyphs n).length
              then modsA ++ [n] else modsA)).1.done,
            lookupGlyph (runGo f rest (propagate f [] n stA)
              (if gA.anchors.length <
                  (anchorsOf (propagate f [] n stA).glyphs n).length
                then modsA ++ [n] else modsA)).1.glyphs m =
              lookupGlyph (propagate f [] n stB).glyphs m := by
          intro m hm
          rw [hBg]
          exact hfin m hm
        have hrec := ih f (propagate f [] n stA) (propagate f [] n stB)
          (if gA.anchors.length <
              (anchorsOf (propagate f [] n stA).glyphs n).length
            then modsA ++ [n] else modsA) modsB hsh2 hBd.symm hfin2
        exact ⟨hrec.1.trans hBg, hrec.2⟩

theorem shape_names (gsA gsB : List Glyph) (h : shapeOf gsA = shapeOf gsB) :
    gsA.map (fun g => g.name) = gsB.map (fun g => g.name) := by
  have h2 := congrArg (List.map Prod.fst) h
  simpa [shapeOf, List.map_map, Function.comp] using h2

theorem shape_length (gsA gsB : List Glyph) (h : shapeOf gsA = shapeOf gsB) :
    gsA.length = gsB.length := by
  have h2 := congrArg List.length h
  simpa [shapeOf] using h2

theorem filterNames_shape (incl : Option (List String)) (gsA gsB : List Glyph)
    (h : shapeOf gsA = shapeOf gsB) :
    filterNames incl gsA = filterNames incl gsB := by
  unfold filterNames
  rw [shape_names gsA gsB h]

/-- C6: running anchor propagation a second time immediately after a first
run, with the same include filter, changes no glyph and returns an empty
modified list: one run reaches a fixed point, and glyphs whose anchors do
not grow — including empty and pure-contour glyphs — are never reported. -/
theorem propagation_idempotent (incl : Option (List String)) (gs : List Glyph) :
    propagateAnchorsFilter incl (propagateAnchorsFilter incl gs).1 =
      ((propagateAnchorsFilter incl gs).1, []) := by
  have hsh1 : shapeOf (propagateAnchorsFilter incl gs).1 = shapeOf gs :=
    runGo_shape (filterNames incl gs) gs.length ⟨gs, []⟩ []
  have hlen : (propagateAnchorsFilter incl gs).1.length = gs.length :=
    shape_length _ _ hsh1
  have hnames : filterNames incl (propagateAnchorsFilter incl gs).1 =
      filterNames incl gs :=
    filterNames_shape incl _ gs hsh1
  have hnoop := runGo_noop (filterNames incl gs) gs.length ⟨gs, []⟩
    ⟨(propagateAnchorsFilter incl gs).1, []⟩ [] [] hsh1.symm rfl
    (fun m _ => rfl)
  show ((runGo (propagateAnchorsFilter incl gs).1.length
      (filterNames incl (propagateAnchorsFilter incl gs).1)
      ⟨(propagateAnchorsFilter incl gs).1, []⟩ []).1.glyphs,
    (runGo (propagateAnchorsFilter incl gs).1.length
      (filterNames incl (propagateAnchorsFilter incl gs).1)
      ⟨(propagateAnchorsFilter incl gs).1, []⟩ []).2) =
    ((propagateAnchorsFilter incl gs).1, [])
  rw [hlen, hnames]
  exact Prod.ext hnoop.1 hnoop.2

end Anchors
